import Mathlib

set_option maxHeartbeats 1000000

/-!
Verification of a library that decodes and characterises fixed-width binary
number formats: an IEEE-754-style float family with vendor variants
(`float_format.py`), a two's-complement integer family (`int_format.py`), and
a log-scale histogram of the representable values (`histogram.py`).

Numbers are modelled exactly: every finite value the code manipulates is a
rational, so Python's `float` results are represented by `ℚ` (plus explicit
`posInf` / `negInf` / `nan` constructors), and `float("inf")`, `float("nan")`
become constructors of `FloatVal`.  Fallible code paths (Python exceptions
such as `ZeroDivisionError`) are modelled with `Option`.
-/

namespace NumFormats

/-- Tag for the float-format class hierarchy in `float_format.py`:
`standard` is `IEEE754BinaryFormat` itself, `gaq b` is `GAQProposedFormat`
carrying its `custom_bias` field, and `nai` is `NAIProposedFormat`. -/
inductive FloatVariant where
  | standard : FloatVariant
  | gaq (custom_bias : ℤ) : FloatVariant
  | nai : FloatVariant
deriving DecidableEq

/-- A float format: exponent width, mantissa width and the (sub)class it is an
instance of.  Mirrors `IEEE754BinaryFormat` and its two subclasses. -/
structure IEEE754BinaryFormat where
  e_width : ℕ
  m_width : ℕ
  variant : FloatVariant
deriving DecidableEq

namespace IEEE754BinaryFormat

/-- The `inf_encoding` class variable: `"E=1s M=0s"` for the standard format,
`"N/A"` for both proposed FP8 variants. -/
def inf_encoding (f : IEEE754BinaryFormat) : String :=
  match f.variant with
  | .standard => "E=1s M=0s"
  | .gaq _ => "N/A"
  | .nai => "N/A"

/-- The `nan_encoding` class variable of each class. -/
def nan_encoding (f : IEEE754BinaryFormat) : String :=
  match f.variant with
  | .standard => "E=1s M≠0s"
  | .gaq _ => "S=1 E=0s M=0s"
  | .nai => "E=1s M=1s"

/-- Exponent bias, `int(2 ** (e_width - 1)) - 1`; `GAQProposedFormat`
overrides it with `custom_bias`.  Python's `int(...)` truncates the
(positive) power toward zero, hence the floor. -/
def bias (f : IEEE754BinaryFormat) : ℤ :=
  match f.variant with
  | .gaq b => b
  | _ => ⌊(2 : ℚ) ^ ((f.e_width : ℤ) - 1)⌋ - 1

/-- Minimum exponent, `1 - bias` (exponent field 0 is reserved for
subnormals). -/
def min_e (f : IEEE754BinaryFormat) : ℤ := 1 - f.bias

/-- Embeds `IEEE754BinaryFormat.max_e`, the base-class rule
`int(2 ** e_width) - 2 - bias`. -/
def max_e_std (f : IEEE754BinaryFormat) : ℤ := 2 ^ f.e_width - 2 - f.bias

/-- Maximum exponent; both proposed formats override the base rule with
`super().max_e + 1` because their all-ones exponent is not reserved. -/
def max_e (f : IEEE754BinaryFormat) : ℤ :=
  match f.variant with
  | .standard => f.max_e_std
  | _ => f.max_e_std + 1

/-- Absolute minimum normal value, `2 ** min_e`. -/
def abs_min_normal (f : IEEE754BinaryFormat) : ℚ := 2 ^ f.min_e

/-- Absolute minimum representable value, `2 ** (min_e - m_width)`. -/
def abs_min (f : IEEE754BinaryFormat) : ℚ := 2 ^ (f.min_e - f.m_width)

/-- Embeds `IEEE754BinaryFormat.abs_max`, the base-class rule
`(2 ** max_e) * (2 - 2 ** -m_width)` (with the subclass's own `max_e`,
dynamic dispatch). -/
def abs_max_std (f : IEEE754BinaryFormat) : ℚ :=
  2 ^ f.max_e * (2 - 2 ^ (-(f.m_width : ℤ)))

/-- Absolute maximum representable value; `NAIProposedFormat` overrides the
base rule with `super().abs_max - 2 ** (max_e - m_width)` because its top bit
pattern denotes NaN. -/
def abs_max (f : IEEE754BinaryFormat) : ℚ :=
  match f.variant with
  | .nai => f.abs_max_std - 2 ^ (f.max_e - f.m_width)
  | _ => f.abs_max_std

end IEEE754BinaryFormat

/-- Result of decoding a bit pattern: Python's `float` is either a (here
exact, rational) finite value, a signed infinity, or NaN. -/
inductive FloatVal where
  | finite (q : ℚ)
  | posInf
  | negInf
  | nan
deriving DecidableEq

/-- An instance of a floating point number: a format plus raw sign, exponent
and mantissa fields.  Mirrors `FloatInstance`. -/
structure FloatInstance where
  format : IEEE754BinaryFormat
  s : ℕ
  e : ℕ
  m : ℕ
deriving DecidableEq

namespace FloatInstance

/-- Embeds `self.e_limit = int(2 ** e_width) - 1`. -/
def e_limit (x : FloatInstance) : ℕ := 2 ^ x.format.e_width - 1

/-- Embeds `self.m_limit = int(2 ** m_width) - 1`. -/
def m_limit (x : FloatInstance) : ℕ := 2 ^ x.format.m_width - 1

/-- The `__post_init__` assertions: `s ∈ {0,1}`, `0 ≤ e ≤ e_limit`,
`0 ≤ m ≤ m_limit`. -/
def Valid (x : FloatInstance) : Prop :=
  x.s ≤ 1 ∧ x.e ≤ x.e_limit ∧ x.m ≤ x.m_limit

instance (x : FloatInstance) : Decidable x.Valid :=
  inferInstanceAs (Decidable (_ ∧ _ ∧ _))

/-- Embeds `_normal_val`: `(-1)^s * 2^(e - bias) * (1 + m / (m_limit + 1))`. -/
def normal_val (x : FloatInstance) : ℚ :=
  (-1) ^ x.s * 2 ^ ((x.e : ℤ) - x.format.bias) * (1 + (x.m : ℚ) / ((x.m_limit : ℚ) + 1))

/-- Embeds `_subnormal_val`: `(-1)^s * 2^(1 - bias) * (m / (m_limit + 1))`. -/
def subnormal_val (x : FloatInstance) : ℚ :=
  (-1) ^ x.s * 2 ^ (1 - x.format.bias) * ((x.m : ℚ) / ((x.m_limit : ℚ) + 1))

/-- Embeds `_is_subnormal`: the exponent field is zero. -/
def is_subnormal (x : FloatInstance) : Bool := x.e == 0

/-- Embeds `_is_nan`, dispatching on the format's `nan_encoding` string exactly as
the source does (the final branch is guarded by an assertion that the string
is `"S=1 E=0s M=0s"`, the only remaining member of the closed set). -/
def is_nan (x : FloatInstance) : Bool :=
  if x.format.nan_encoding = "E=1s M≠0s" then x.e == x.e_limit && x.m != 0
  else if x.format.nan_encoding = "E=1s M=1s" then x.e == x.e_limit && x.m == x.m_limit
  else x.s == 1 && x.e == 0 && x.m == 0

/-- Embeds `_is_inf`, dispatching on `inf_encoding` (the final branch is guarded by
an assertion that the string is `"N/A"`). -/
def is_inf (x : FloatInstance) : Bool :=
  if x.format.inf_encoding = "E=1s M=0s" then x.e == x.e_limit && x.m == 0
  else false

/-- Embeds `FloatInstance.value`: infinity check, then NaN check, then the
subnormal/normal split.  `float("inf") * int((-1) ** s)` is positive infinity
for even `s` and negative infinity for odd `s`. -/
def value (x : FloatInstance) : FloatVal :=
  if x.is_inf then (if x.s % 2 == 0 then .posInf else .negInf)
  else if x.is_nan then .nan
  else if x.is_subnormal then .finite x.subnormal_val
  else .finite x.normal_val

end FloatInstance

namespace FloatVal

/-- IEEE equality of two decoded `float`s (`float.__eq__` on two numbers):
NaN is equal to nothing, including itself. -/
def feq : FloatVal → FloatVal → Bool
  | .finite p, .finite q => p == q
  | .posInf, .posInf => true
  | .negInf, .negInf => true
  | _, _ => false

/-- IEEE strict order of two decoded `float`s (`float.__lt__` on two
numbers): NaN is unordered, so any comparison against it is false. -/
def flt : FloatVal → FloatVal → Bool
  | .nan, _ => false
  | _, .nan => false
  | .negInf, .negInf => false
  | .negInf, _ => true
  | _, .negInf => false
  | .finite p, .finite q => decide (p < q)
  | .finite _, .posInf => true
  | .posInf, _ => false

/-- The mathematical strict order on decoded values (used to state what "A's
decoded value is less than B's" means; NaN is comparable with nothing). -/
def Lt : FloatVal → FloatVal → Prop
  | .negInf, .finite _ => True
  | .negInf, .posInf => True
  | .finite p, .finite q => p < q
  | .finite _, .posInf => True
  | _, _ => False

instance : ∀ a b : FloatVal, Decidable (Lt a b) := fun a b => by
  cases a <;> cases b <;> simp only [Lt] <;> infer_instance

end FloatVal

namespace FloatInstance

/-- Embeds `FloatInstance.__eq__(self, other)` evaluated with a decoded `float` as
`other`: `self.value.__eq__(other)` is a genuine float comparison. -/
def eq_float (a : FloatInstance) (other : FloatVal) : Bool := FloatVal.feq a.value other

/-- Embeds `FloatInstance.__lt__(self, other)` evaluated with a decoded `float` as
`other`: `self.value.__lt__(other)` is a genuine float comparison. -/
def lt_float (a : FloatInstance) (other : FloatVal) : Bool := FloatVal.flt a.value other

/-- Embeds `a == b` for two `FloatInstance` objects.  `a.value.__eq__(b)` returns
`NotImplemented` (a `float` never equals a non-number), the reflected
`b.value.__eq__(a)` does too, and Python then falls back to object identity.
Identity is modelled as field equality; this over-approximates Python, which
additionally distinguishes equal-field copies, but is exact whenever the
fields differ. -/
def eq_inst (a b : FloatInstance) : Bool := a == b

end FloatInstance

/-- The two's complement formats of `int_format.py`: `base w` is
`TwosComplementFormat(width=w)` and `scaled w c` is
`ScaledTwosComplementFormat(width=w, scale=c)`. -/
inductive TwosComplementFormat where
  | base (width : ℕ)
  | scaled (width : ℕ) (scale : ℤ)
deriving DecidableEq

namespace TwosComplementFormat

/-- The shared `width` field. -/
def width : TwosComplementFormat → ℕ
  | .base w => w
  | .scaled w _ => w

/-- The `scale` field of `ScaledTwosComplementFormat` (a plain
`TwosComplementFormat` has none; reading it there is only done by code that
asserts the scaled class first, so `1` is a convenient stand-in). -/
def scale : TwosComplementFormat → ℤ
  | .base _ => 1
  | .scaled _ c => c

/-- Embeds `abs_min`: `1` for the base class, multiplied by `scale` in the
subclass. -/
def abs_min : TwosComplementFormat → ℚ
  | .base _ => 1
  | .scaled _ c => 1 * c

/-- Embeds `abs_max`: `float(2 ** (width - 1) - 1)` for the base class (`2 ** (w-1)`
is a Python float when `w = 0`, hence the integer exponent), multiplied by
`scale` in the subclass. -/
def abs_max : TwosComplementFormat → ℚ
  | .base w => 2 ^ ((w : ℤ) - 1) - 1
  | .scaled w c => (2 ^ ((w : ℤ) - 1) - 1) * c

end TwosComplementFormat

/-- An instance of a (possibly scaled) two's complement number.  Mirrors
`TwosComplementInstance`. -/
structure TwosComplementInstance where
  format : TwosComplementFormat
  uint : ℕ
deriving DecidableEq

namespace TwosComplementInstance

/-- The `__post_init__` assertion `0 <= uint < 2 ** width`. -/
def Valid (x : TwosComplementInstance) : Prop := x.uint < 2 ^ x.format.width

instance (x : TwosComplementInstance) : Decidable x.Valid :=
  inferInstanceAs (Decidable (_ < _))

/-- Embeds `TwosComplementInstance.value`: `uint` itself if `uint <= format.abs_max`
(note: the format's own, possibly scaled, `abs_max` — dynamic dispatch),
otherwise `uint - 2 ** width`. -/
def value (x : TwosComplementInstance) : ℚ :=
  if (x.uint : ℚ) ≤ x.format.abs_max then (x.uint : ℚ)
  else (x.uint : ℚ) - 2 ^ x.format.width

/-- Embeds `__eq__` evaluated with a number as `other`: a genuine numeric
comparison. -/
def eq_num (a : TwosComplementInstance) (other : ℚ) : Bool := a.value == other

/-- Embeds `__lt__` evaluated with a number as `other`. -/
def lt_num (a : TwosComplementInstance) (other : ℚ) : Bool := decide (a.value < other)

end TwosComplementInstance

/-- Embeds `_is_valid_number`: not NaN and not one of `±inf`. -/
def is_valid_number : FloatVal → Bool
  | .finite _ => true
  | _ => false

/-- The finite payload of a decoded value, if any. -/
def FloatVal.toQ : FloatVal → Option ℚ
  | .finite q => some q
  | _ => none

/-- Embeds `_log_pos_floats`.  A number in log₂ space is represented symbolically by
its (positive rational) antilogarithm, so `np.log2(values)` is the identity
on the filtered values.  `sample_count // 2**e_width == 0` makes the Python
`//` in `step_size` raise `ZeroDivisionError`, modelled by `none`.
`range(a, b)` is `List.range' a (b - a)` and `range(0, n, step)` is
`List.range' 0 ⌈n / step⌉ step`. -/
def log_pos_floats (fmt : IEEE754BinaryFormat) (sample_count : ℕ) : Option (List ℚ) :=
  let mantissa_samples := sample_count / 2 ^ fmt.e_width
  if mantissa_samples = 0 then none
  else
    let step_size := max (2 ^ fmt.m_width / mantissa_samples) 1
    let normal_values : List FloatVal :=
      (List.range' 1 (2 ^ fmt.e_width - 1) 1).flatMap fun e =>
        (List.range' 0 ((2 ^ fmt.m_width + step_size - 1) / step_size) step_size).map fun m =>
          FloatInstance.value ⟨fmt, 0, e, m⟩
    let subnormal_values : List FloatVal :=
      (List.range' 1 (2 ^ fmt.m_width - 1) 1).map fun m =>
        FloatInstance.value ⟨fmt, 0, 0, m⟩
    let values := subnormal_values ++ normal_values
    some ((values.filter is_valid_number).filterMap FloatVal.toQ)

/-- Embeds `_log_pos_ints`: the positive bit patterns `uint ∈ range(1, 2**(width-1))`
decoded and multiplied by `fmt.scale`, again represented by antilogarithms
(the non-positive products that `np.log2` would map to `-inf`/NaN keep their
rational value here and are dropped by the binning filter below, exactly as
`np.histogram` drops `-inf`/NaN). -/
def log_pos_ints (fmt : TwosComplementFormat) : List ℚ :=
  (List.range' 1 (2 ^ (fmt.width - 1) - 1) 1).map fun uint =>
    TwosComplementInstance.value ⟨fmt, uint⟩ * (fmt.scale : ℚ)

/-- Embeds `r ≤ log2 v` for a rational bin edge `r` and a positive antilogarithm
`v`, decided exactly: `r ≤ log2 v ↔ 2^r.num ≤ v^r.den`. -/
def edge_le_log (r v : ℚ) : Bool := decide ((2 : ℚ) ^ r.num ≤ v ^ r.den)

/-- Embeds `log2 v < r`, decided exactly as `v^r.den < 2^r.num`. -/
def log_lt_edge (v r : ℚ) : Bool := decide (v ^ r.den < (2 : ℚ) ^ r.num)

/-- Embeds `log2 v ≤ r`, decided exactly as `v^r.den ≤ 2^r.num`. -/
def log_le_edge (v r : ℚ) : Bool := decide (v ^ r.den ≤ (2 : ℚ) ^ r.num)

/-- The number of samples `np.histogram` places in the bin `[lo, hi)` (the
last bin is closed on the right).  Samples are log₂ values represented by
their antilogarithm `v > 0`; a non-positive `v` stands for `np.log2`'s
`-inf`/NaN output, which lands in no bin. -/
def binCount (xs : List ℚ) (lo hi : ℚ) (lastBin : Bool) : ℕ :=
  xs.countP fun v =>
    decide (0 < v) && edge_le_log lo v &&
      (if lastBin then log_le_edge v hi else log_lt_edge v hi)

/-- Embeds `np.histogram(xs, bin_edges)`: one count per adjacent pair of edges. -/
def histCounts (xs : List ℚ) (edges : List ℚ) : List ℕ :=
  (List.range (edges.length - 1)).map fun i =>
    binCount xs (edges.getD i 0) (edges.getD (i + 1) 0) (i + 2 == edges.length)

/-- Embeds `np.arange(start, stop, step)` for a positive rational step:
`⌈(stop - start) / step⌉` points `start + k * step`. -/
def np_arange (start stop step : ℚ) : List ℚ :=
  (List.range (⌈(stop - start) / step⌉).toNat).map fun k : ℕ => start + (k : ℚ) * step

/-- Bounded linear search: the first `k`, counting up from the second
argument, with `p k`, giving up after `fuel` steps. -/
def findFirst (p : ℕ → Bool) : ℕ → ℕ → ℕ
  | 0, k => k
  | fuel + 1, k => if p k then k else findFirst p fuel (k + 1)

/-- Embeds `int(np.ceil(np.log2(q)))`: the least `k : ℤ` with `q ≤ 2^k`, computed on
`num`/`den`.  For `q ≤ 0`, `np.log2` gives `-inf`/NaN and the `int(...)`
conversion raises (`OverflowError`/`ValueError`), modelled by `none`. -/
def np_ceil_log2 (q : ℚ) : Option ℤ :=
  if q.num ≤ 0 then none
  else
    let n := q.num.toNat
    let d := q.den
    if d ≤ n then some (findFirst (fun k => n ≤ 2 ^ k * d) (n + 1) 0)
    else some (-(findFirst (fun j => d < n * 2 ^ (j + 1)) (d + 1) 0 : ℕ))

/-- Embeds `_count_float_bins`: histogram the sampled float population, then
`np.where(bin_edges[:-1] < np.log2(abs_min_normal), counts, counts * factor)`
with `factor = max(2**(e_width+m_width) // sample_count, 1)`.
`np.log2(abs_min_normal)` is exactly `min_e` since `abs_min_normal = 2^min_e`. -/
def count_float_bins (fmt : IEEE754BinaryFormat) (bin_edges : List ℚ)
    (sample_count : ℕ) : Option (List ℕ × List ℚ) :=
  (log_pos_floats fmt sample_count).map fun floats =>
    let hist_counts := histCounts floats bin_edges
    let sampling_factor := max (2 ^ (fmt.e_width + fmt.m_width) / sample_count) 1
    (List.zipWith
      (fun lo c => if lo < (fmt.min_e : ℚ) then c else c * sampling_factor)
      bin_edges.dropLast hist_counts,
     bin_edges)

/-- Embeds `_count_int_bins`: plain histogram of the enumerated integer values, no
correction factor. -/
def count_int_bins (fmt : TwosComplementFormat) (bin_edges : List ℚ) :
    List ℕ × List ℚ :=
  (histCounts (log_pos_ints fmt) bin_edges, bin_edges)

/-- The `count` column of the result: `np.log2` of an integer bin count,
`-inf` for an empty bin (computed under `np.errstate(divide="ignore")`).
`log2 n` is kept symbolic, indexed by the positive count `n`. -/
inductive Log2Count where
  | negInf
  | log2 (count : ℕ)
deriving DecidableEq

/-- Embeds `np.log2` on one bin count. -/
def np_log2_count (n : ℕ) : Log2Count := if n = 0 then .negInf else .log2 n

/-- Embeds `log_histogram(fmt, bin_width, sample_count)`: bin edges from
`np.arange(ceil(log2(abs_min)), ceil(log2(abs_max)) + 1, bin_width)`, float
or int binning, and the `(start, end, log2 count)` rows of the resulting
DataFrame.  A plain (unscaled) integer format fails the
`isinstance(fmt, ScaledTwosComplementFormat)` assertion. -/
def log_histogram (fmt : IEEE754BinaryFormat ⊕ TwosComplementFormat)
    (bin_width : ℚ) (sample_count : ℕ) : Option (List (ℚ × ℚ × Log2Count)) :=
  let amin : ℚ := match fmt with
    | .inl f => f.abs_min
    | .inr f => f.abs_min
  let amax : ℚ := match fmt with
    | .inl f => f.abs_max
    | .inr f => f.abs_max
  match np_ceil_log2 amin with
  | none => none
  | some min_log_value =>
    match np_ceil_log2 amax with
    | none => none
    | some max_log_value =>
      let bin_edges := np_arange (min_log_value : ℚ) ((max_log_value : ℚ) + 1) bin_width
      match (match fmt with
             | .inl f => count_float_bins f bin_edges sample_count
             | .inr (.base _) => none
             | .inr (.scaled w c) => some (count_int_bins (.scaled w c) bin_edges)) with
      | none => none
      | some (counts, edges) => some (List.zipWith (fun s p => (s, p.1, p.2))
          edges.dropLast (edges.tail.zip (counts.map np_log2_count)))

/-! Helper lemmas. -/

theorem m_limit_add_one (x : FloatInstance) :
    (x.m_limit : ℚ) + 1 = 2 ^ x.format.m_width := by
  have h : x.m_limit + 1 = 2 ^ x.format.m_width :=
    Nat.succ_pred_eq_of_pos (Nat.pos_pow_of_pos _ (by norm_num))
  calc (x.m_limit : ℚ) + 1 = ((x.m_limit + 1 : ℕ) : ℚ) := by push_cast; ring
  _ = 2 ^ x.format.m_width := by rw [h]; push_cast; ring

theorem e_limit_pos (x : FloatInstance) (h : 1 ≤ x.format.e_width) :
    1 ≤ x.e_limit := by
  have : 2 ≤ 2 ^ x.format.e_width := by
    calc 2 = 2 ^ 1 := rfl
    _ ≤ 2 ^ x.format.e_width := Nat.pow_le_pow_right (by norm_num) h
  simp only [FloatInstance.e_limit]
  omega

theorem nan_not_inf (x : FloatInstance) (h : x.is_nan = true) : x.is_inf = false := by
  rcases x with ⟨⟨ew, mw, var⟩, s, e, m⟩
  cases var
  · simp only [FloatInstance.is_nan, FloatInstance.is_inf,
      IEEE754BinaryFormat.nan_encoding, IEEE754BinaryFormat.inf_encoding] at h ⊢
    simp only [if_true] at h ⊢
    simp only [Bool.and_eq_true, beq_iff_eq, bne_iff_ne] at h
    simp [h.2]
  · simp [FloatInstance.is_inf, IEEE754BinaryFormat.inf_encoding]
  · simp [FloatInstance.is_inf, IEEE754BinaryFormat.inf_encoding]

theorem two_zpow_pos (k : ℤ) : (0 : ℚ) < 2 ^ k := by positivity

theorem two_zpow_le {j k : ℤ} (h : j ≤ k) : (2 : ℚ) ^ j ≤ 2 ^ k :=
  zpow_le_zpow_right₀ (by norm_num) h

theorem zpow_sub_natCast (a : ℤ) (n : ℕ) : (2 : ℚ) ^ (a - (n : ℤ)) = 2 ^ a / 2 ^ n := by
  rw [zpow_sub₀ (by norm_num : (2 : ℚ) ≠ 0), zpow_natCast]

theorem zpow_neg_natCast (n : ℕ) : (2 : ℚ) ^ (-(n : ℤ)) = 1 / 2 ^ n := by
  rw [zpow_neg, zpow_natCast, one_div]

theorem cast_two_pow_sub_one (n : ℕ) : ((2 ^ n - 1 : ℕ) : ℚ) = 2 ^ n - 1 := by
  have h : 1 ≤ 2 ^ n := Nat.one_le_two_pow
  push_cast [h]
  ring

theorem value_not_special (x : FloatInstance) (hinf : x.is_inf = false)
    (hnan : x.is_nan = false) :
    x.value = if x.e = 0 then .finite x.subnormal_val else .finite x.normal_val := by
  simp only [FloatInstance.value, hinf, hnan, Bool.false_eq_true, if_false,
    FloatInstance.is_subnormal]
  by_cases he : x.e = 0 <;> simp [he]

theorem value_finite_elim (x : FloatInstance) (q : ℚ) (h : x.value = .finite q) :
    x.is_inf = false ∧ x.is_nan = false ∧
      ((x.e = 0 ∧ q = x.subnormal_val) ∨ (x.e ≠ 0 ∧ q = x.normal_val)) := by
  cases hinf : x.is_inf
  · cases hnan : x.is_nan
    · rw [value_not_special x hinf hnan] at h
      refine ⟨rfl, rfl, ?_⟩
      by_cases he : x.e = 0
      · simp only [he, if_true, FloatVal.finite.injEq] at h
        exact Or.inl ⟨he, h.symm⟩
      · simp only [he, if_false, FloatVal.finite.injEq] at h
        exact Or.inr ⟨he, h.symm⟩
    · exfalso
      simp only [FloatInstance.value, hinf, hnan, Bool.false_eq_true, if_false,
        if_true] at h
      cases h
  · exfalso
    simp only [FloatInstance.value, hinf, if_true] at h
    split at h <;> cases h

theorem pos_value_s_eq_zero (x : FloatInstance) (hs : x.s ≤ 1) (q : ℚ) (hq : 0 < q)
    (h : q = x.subnormal_val ∨ q = x.normal_val) : x.s = 0 := by
  by_contra hne
  have hs1 : x.s = 1 := by omega
  have hd : (0 : ℚ) < (x.m_limit : ℚ) + 1 := by positivity
  rcases h with h | h
  · have h1 : (0 : ℚ) ≤ 2 ^ (1 - x.format.bias) * ((x.m : ℚ) / ((x.m_limit : ℚ) + 1)) := by
      positivity
    rw [FloatInstance.subnormal_val, hs1] at h
    simp only [pow_one] at h
    nlinarith
  · have h0 : (0 : ℚ) ≤ (x.m : ℚ) / ((x.m_limit : ℚ) + 1) := by positivity
    have h1 : (0 : ℚ) ≤ 2 ^ ((x.e : ℤ) - x.format.bias) *
        (1 + (x.m : ℚ) / ((x.m_limit : ℚ) + 1)) := by positivity
    rw [FloatInstance.normal_val, hs1] at h
    simp only [pow_one] at h
    nlinarith

theorem not_special_pos_subnormal (ew mw : ℕ) (var : FloatVariant) (hew : 1 ≤ ew)
    (m : ℕ) :
    FloatInstance.is_inf ⟨⟨ew, mw, var⟩, 0, 0, m⟩ = false ∧
    FloatInstance.is_nan ⟨⟨ew, mw, var⟩, 0, 0, m⟩ = false := by
  have h2 : 2 ≤ 2 ^ ew := by
    calc 2 = 2 ^ 1 := rfl
    _ ≤ 2 ^ ew := Nat.pow_le_pow_right (by norm_num) hew
  have hez : ¬(0 = 2 ^ ew - 1) := by omega
  cases var <;>
    constructor <;>
      simp [FloatInstance.is_inf, FloatInstance.is_nan,
        IEEE754BinaryFormat.inf_encoding, IEEE754BinaryFormat.nan_encoding,
        FloatInstance.e_limit, hez]

theorem abs_min_attained (f : IEEE754BinaryFormat) (hew : 1 ≤ f.e_width)
    (hmw : 1 ≤ f.m_width) :
    (⟨f, 0, 0, 1⟩ : FloatInstance).Valid ∧
    FloatInstance.value ⟨f, 0, 0, 1⟩ = .finite f.abs_min := by
  have hm2 : 2 ≤ 2 ^ f.m_width := by
    calc 2 = 2 ^ 1 := rfl
    _ ≤ 2 ^ f.m_width := Nat.pow_le_pow_right (by norm_num) hmw
  constructor
  · refine ⟨Nat.zero_le 1, Nat.zero_le _, ?_⟩
    show 1 ≤ 2 ^ f.m_width - 1
    omega
  · obtain ⟨hinf, hnan⟩ := not_special_pos_subnormal f.e_width f.m_width f.variant hew 1
    have he0 : (⟨f, 0, 0, 1⟩ : FloatInstance).e = 0 := rfl
    rw [value_not_special ⟨f, 0, 0, 1⟩ hinf hnan, if_pos he0]
    simp only [FloatVal.finite.injEq]
    rw [FloatInstance.subnormal_val]
    simp only [pow_zero, one_mul, Nat.cast_one]
    rw [m_limit_add_one, IEEE754BinaryFormat.abs_min, IEEE754BinaryFormat.min_e,
      zpow_sub_natCast]
    ring

theorem abs_max_attained_std (ew mw : ℕ) (hew : 2 ≤ ew) (hmw : 1 ≤ mw) :
    (⟨⟨ew, mw, .standard⟩, 0, 2 ^ ew - 2, 2 ^ mw - 1⟩ : FloatInstance).Valid ∧
    FloatInstance.value ⟨⟨ew, mw, .standard⟩, 0, 2 ^ ew - 2, 2 ^ mw - 1⟩ =
      .finite (IEEE754BinaryFormat.abs_max ⟨ew, mw, .standard⟩) := by
  have h4 : 4 ≤ 2 ^ ew := by
    calc 4 = 2 ^ 2 := rfl
    _ ≤ 2 ^ ew := Nat.pow_le_pow_right (by norm_num) hew
  have hm1 : 1 ≤ 2 ^ mw := Nat.one_le_two_pow
  have hinf : FloatInstance.is_inf ⟨⟨ew, mw, .standard⟩, 0, 2 ^ ew - 2, 2 ^ mw - 1⟩ = false := by
    simp only [FloatInstance.is_inf, IEEE754BinaryFormat.inf_encoding, if_true,
      FloatInstance.e_limit]
    have : ¬(2 ^ ew - 2 = 2 ^ ew - 1) := by omega
    simp [this]
  have hnan : FloatInstance.is_nan ⟨⟨ew, mw, .standard⟩, 0, 2 ^ ew - 2, 2 ^ mw - 1⟩ = false := by
    simp only [FloatInstance.is_nan, IEEE754BinaryFormat.nan_encoding, if_true,
      FloatInstance.e_limit]
    have : ¬(2 ^ ew - 2 = 2 ^ ew - 1) := by omega
    simp [this]
  refine ⟨⟨Nat.zero_le 1, ?_, ?_⟩, ?_⟩
  · show 2 ^ ew - 2 ≤ 2 ^ ew - 1
    omega
  · show 2 ^ mw - 1 ≤ 2 ^ mw - 1
    omega
  · have hne0 : ¬((⟨⟨ew, mw, .standard⟩, 0, 2 ^ ew - 2, 2 ^ mw - 1⟩ : FloatInstance).e = 0) := by
      show ¬(2 ^ ew - 2 = 0)
      omega
    have hcast : ((2 ^ ew - 2 : ℕ) : ℤ) = 2 ^ ew - 2 := by
      rw [Nat.cast_sub (by omega : 2 ≤ 2 ^ ew)]
      push_cast
      ring
    rw [value_not_special _ hinf hnan, if_neg hne0]
    simp only [FloatVal.finite.injEq, FloatInstance.normal_val, m_limit_add_one,
      IEEE754BinaryFormat.abs_max, IEEE754BinaryFormat.abs_max_std,
      IEEE754BinaryFormat.max_e, IEEE754BinaryFormat.max_e_std, pow_zero, one_mul]
    rw [hcast, cast_two_pow_sub_one, zpow_neg_natCast]
    have hc : (0 : ℚ) < 2 ^ mw := by positivity
    field_simp
    exact Or.inl (by ring)

theorem abs_max_attained_gaq (ew mw : ℕ) (b : ℤ) (hew : 1 ≤ ew) (hmw : 1 ≤ mw) :
    (⟨⟨ew, mw, .gaq b⟩, 0, 2 ^ ew - 1, 2 ^ mw - 1⟩ : FloatInstance).Valid ∧
    FloatInstance.value ⟨⟨ew, mw, .gaq b⟩, 0, 2 ^ ew - 1, 2 ^ mw - 1⟩ =
      .finite (IEEE754BinaryFormat.abs_max ⟨ew, mw, .gaq b⟩) := by
  have h2 : 2 ≤ 2 ^ ew := by
    calc 2 = 2 ^ 1 := rfl
    _ ≤ 2 ^ ew := Nat.pow_le_pow_right (by norm_num) hew
  have hm1 : 1 ≤ 2 ^ mw := Nat.one_le_two_pow
  have hinf : FloatInstance.is_inf ⟨⟨ew, mw, .gaq b⟩, 0, 2 ^ ew - 1, 2 ^ mw - 1⟩ = false := by
    simp [FloatInstance.is_inf, IEEE754BinaryFormat.inf_encoding]
  have hnan : FloatInstance.is_nan ⟨⟨ew, mw, .gaq b⟩, 0, 2 ^ ew - 1, 2 ^ mw - 1⟩ = false := by
    simp [FloatInstance.is_nan, IEEE754BinaryFormat.nan_encoding]
  refine ⟨⟨Nat.zero_le 1, le_refl _, le_refl _⟩, ?_⟩
  have hne0 : ¬((⟨⟨ew, mw, .gaq b⟩, 0, 2 ^ ew - 1, 2 ^ mw - 1⟩ : FloatInstance).e = 0) := by
    show ¬(2 ^ ew - 1 = 0)
    omega
  have hcast : ((2 ^ ew - 1 : ℕ) : ℤ) = 2 ^ ew - 1 := by
    rw [Nat.cast_sub (by omega : 1 ≤ 2 ^ ew)]
    push_cast
    ring
  rw [value_not_special _ hinf hnan, if_neg hne0]
  simp only [FloatVal.finite.injEq, FloatInstance.normal_val, m_limit_add_one,
    IEEE754BinaryFormat.abs_max, IEEE754BinaryFormat.abs_max_std,
    IEEE754BinaryFormat.max_e, IEEE754BinaryFormat.max_e_std, pow_zero, one_mul]
  rw [hcast, cast_two_pow_sub_one, zpow_neg_natCast]
  have hexp : (2 : ℤ) ^ ew - 1 - (⟨ew, mw, .gaq b⟩ : IEEE754BinaryFormat).bias =
      2 ^ ew - 2 - (⟨ew, mw, .gaq b⟩ : IEEE754BinaryFormat).bias + 1 := by ring
  rw [hexp]
  have hc : (0 : ℚ) < 2 ^ mw := by positivity
  field_simp
  exact Or.inl (by ring)

theorem abs_max_attained_nai (ew mw : ℕ) (hew : 1 ≤ ew) (hmw : 1 ≤ mw) :
    (⟨⟨ew, mw, .nai⟩, 0, 2 ^ ew - 1, 2 ^ mw - 2⟩ : FloatInstance).Valid ∧
    FloatInstance.value ⟨⟨ew, mw, .nai⟩, 0, 2 ^ ew - 1, 2 ^ mw - 2⟩ =
      .finite (IEEE754BinaryFormat.abs_max ⟨ew, mw, .nai⟩) := by
  have h2 : 2 ≤ 2 ^ ew := by
    calc 2 = 2 ^ 1 := rfl
    _ ≤ 2 ^ ew := Nat.pow_le_pow_right (by norm_num) hew
  have hm2 : 2 ≤ 2 ^ mw := by
    calc 2 = 2 ^ 1 := rfl
    _ ≤ 2 ^ mw := Nat.pow_le_pow_right (by norm_num) hmw
  have hinf : FloatInstance.is_inf ⟨⟨ew, mw, .nai⟩, 0, 2 ^ ew - 1, 2 ^ mw - 2⟩ = false := by
    simp [FloatInstance.is_inf, IEEE754BinaryFormat.inf_encoding]
  have hnan : FloatInstance.is_nan ⟨⟨ew, mw, .nai⟩, 0, 2 ^ ew - 1, 2 ^ mw - 2⟩ = false := by
    simp only [FloatInstance.is_nan, IEEE754BinaryFormat.nan_encoding, if_true]
    simp only [FloatInstance.m_limit, FloatInstance.e_limit]
    have : ¬(2 ^ mw - 2 = 2 ^ mw - 1) := by omega
    simp [this]
  refine ⟨⟨Nat.zero_le 1, le_refl _, ?_⟩, ?_⟩
  · show 2 ^ mw - 2 ≤ 2 ^ mw - 1
    omega
  have hne0 : ¬((⟨⟨ew, mw, .nai⟩, 0, 2 ^ ew - 1, 2 ^ mw - 2⟩ : FloatInstance).e = 0) := by
    show ¬(2 ^ ew - 1 = 0)
    omega
  have hcast : ((2 ^ ew - 1 : ℕ) : ℤ) = 2 ^ ew - 1 := by
    rw [Nat.cast_sub (by omega : 1 ≤ 2 ^ ew)]
    push_cast
    ring
  have hcast2 : ((2 ^ mw - 2 : ℕ) : ℚ) = 2 ^ mw - 2 := by
    rw [Nat.cast_sub hm2]
    push_cast
    ring
  rw [value_not_special _ hinf hnan, if_neg hne0]
  simp only [FloatVal.finite.injEq, FloatInstance.normal_val, m_limit_add_one,
    IEEE754BinaryFormat.abs_max, IEEE754BinaryFormat.abs_max_std,
    IEEE754BinaryFormat.max_e, IEEE754BinaryFormat.max_e_std, pow_zero, one_mul]
  rw [hcast, hcast2, zpow_neg_natCast, zpow_sub_natCast]
  have hexp : (2 : ℤ) ^ ew - 1 - ((⟨ew, mw, .nai⟩ : IEEE754BinaryFormat).bias) =
      2 ^ ew - 2 - ((⟨ew, mw, .nai⟩ : IEEE754BinaryFormat).bias) + 1 := by ring
  rw [hexp]
  have hc : (0 : ℚ) < 2 ^ mw := by positivity
  field_simp
  ring

theorem value_bounds (ew mw : ℕ) (var : FloatVariant) (hew : 1 ≤ ew) (hmw : 1 ≤ mw)
    (s e m : ℕ) (hv : (⟨⟨ew, mw, var⟩, s, e, m⟩ : FloatInstance).Valid) (q : ℚ)
    (hval : FloatInstance.value ⟨⟨ew, mw, var⟩, s, e, m⟩ = .finite q) (hq : 0 < q) :
    IEEE754BinaryFormat.abs_min ⟨ew, mw, var⟩ ≤ q ∧
    q ≤ IEEE754BinaryFormat.abs_max ⟨ew, mw, var⟩ := by
  obtain ⟨hs, he, hm⟩ := hv
  replace hs : s ≤ 1 := hs
  replace he : e ≤ 2 ^ ew - 1 := he
  replace hm : m ≤ 2 ^ mw - 1 := hm
  obtain ⟨hinf, hnan, hcase⟩ := value_finite_elim _ q hval
  have hs0 : s = 0 :=
    pos_value_s_eq_zero _ hs q hq (hcase.imp (fun h => h.2) (fun h => h.2))
  subst hs0
  have hcN : 2 ≤ 2 ^ mw := by
    calc 2 = 2 ^ 1 := rfl
    _ ≤ 2 ^ mw := Nat.pow_le_pow_right (by norm_num) hmw
  have heN : 2 ≤ 2 ^ ew := by
    calc 2 = 2 ^ 1 := rfl
    _ ≤ 2 ^ ew := Nat.pow_le_pow_right (by norm_num) hew
  have heZ : (2 : ℤ) ≤ 2 ^ ew := by exact_mod_cast heN
  have hbr : ((2 ^ ew : ℕ) : ℤ) = 2 ^ ew := by push_cast; ring
  have hc : (0 : ℚ) < 2 ^ mw := by positivity
  have hmq : (m : ℚ) ≤ 2 ^ mw - 1 := by
    have h1 : (m : ℚ) ≤ ((2 ^ mw - 1 : ℕ) : ℚ) := by exact_mod_cast hm
    rwa [cast_two_pow_sub_one] at h1
  have hm0 : (0 : ℚ) ≤ (m : ℚ) := Nat.cast_nonneg _
  set b : ℤ := IEEE754BinaryFormat.bias ⟨ew, mw, var⟩ with hbdef
  set t : ℚ := 1 / 2 ^ mw with htdef
  have ht0 : 0 < t := by positivity
  have ht1 : t ≤ 1 / 2 := by
    rw [htdef]
    rw [div_le_div_iff hc (by norm_num)]
    have : ((2 : ℕ) : ℚ) ≤ ((2 ^ mw : ℕ) : ℚ) := Nat.cast_le.2 hcN
    push_cast at this
    linarith
  -- the two possible shapes of q
  rcases hcase with ⟨he0, hqe⟩ | ⟨he0, hqe⟩
  · -- subnormal: q = 2^(1-b) * (m / 2^mw)
    have hql : q = 2 ^ (1 - b) * ((m : ℚ) / 2 ^ mw) := by
      rw [hqe, FloatInstance.subnormal_val, m_limit_add_one]
      norm_num
    have hp := two_zpow_pos (1 - b)
    have hm1 : 1 ≤ m := by
      rcases Nat.eq_zero_or_pos m with h0 | h1
      · exfalso
        rw [h0] at hql
        simp at hql
        rw [hql] at hq
        exact lt_irrefl _ hq
      · exact h1
    have hm1q : (1 : ℚ) ≤ (m : ℚ) := by exact_mod_cast hm1
    constructor
    · -- abs_min ≤ q
      rw [IEEE754BinaryFormat.abs_min, IEEE754BinaryFormat.min_e, zpow_sub_natCast, hql]
      have h1 : (2 : ℚ) ^ (1 - b) / 2 ^ mw = 2 ^ (1 - b) * ((1 : ℚ) / 2 ^ mw) := by ring
      rw [h1]
      gcongr
    · -- q ≤ abs_max
      have hqU : q ≤ 2 ^ (1 - b) * (1 - t) := by
        rw [hql]
        have hstep : (m : ℚ) / 2 ^ mw ≤ 1 - t := by
          have h2 : (m : ℚ) / 2 ^ mw ≤ (2 ^ mw - 1) / 2 ^ mw := by gcongr
          have h3 : ((2 : ℚ) ^ mw - 1) / 2 ^ mw = 1 - t := by
            rw [htdef]
            field_simp
          linarith
        gcongr
      refine le_trans hqU ?_
      -- per-variant: 2^(1-b) * (1 - t) ≤ abs_max
      cases var
      case standard =>
        simp only [IEEE754BinaryFormat.abs_max, IEEE754BinaryFormat.abs_max_std,
          IEEE754BinaryFormat.max_e, IEEE754BinaryFormat.max_e_std,
          zpow_neg_natCast, ← htdef, ← hbdef]
        have hme : 1 - b - 1 ≤ 2 ^ ew - 2 - b := by omega
        have hmax := two_zpow_le hme
        have hhalf : (2 : ℚ) ^ (1 - b - 1) = 2 ^ (1 - b) / 2 := by
          rw [zpow_sub₀ (by norm_num : (2 : ℚ) ≠ 0)]
          norm_num
        rw [hhalf] at hmax
        nlinarith [mul_le_mul_of_nonneg_right hmax (show (0 : ℚ) ≤ 2 - t by linarith),
          mul_pos hp ht0]
      case gaq custom =>
        simp only [IEEE754BinaryFormat.abs_max, IEEE754BinaryFormat.abs_max_std,
          IEEE754BinaryFormat.max_e, IEEE754BinaryFormat.max_e_std,
          zpow_neg_natCast, ← htdef, ← hbdef]
        have hme : 1 - b ≤ 2 ^ ew - 2 - b + 1 := by omega
        have hmax := two_zpow_le hme
        nlinarith [mul_le_mul_of_nonneg_right hmax (show (0 : ℚ) ≤ 2 - t by linarith),
          mul_pos hp ht0]
      case nai =>
        simp only [IEEE754BinaryFormat.abs_max, IEEE754BinaryFormat.abs_max_std,
          IEEE754BinaryFormat.max_e, IEEE754BinaryFormat.max_e_std,
          zpow_neg_natCast, zpow_sub_natCast, ← htdef, ← hbdef]
        have hme : 1 - b ≤ 2 ^ ew - 2 - b + 1 := by omega
        have hmax := two_zpow_le hme
        have hrw : (2 : ℚ) ^ (2 ^ ew - 2 - b + 1) / 2 ^ mw =
            2 ^ (2 ^ ew - 2 - b + 1) * t := by
          rw [htdef]; ring
        rw [hrw]
        nlinarith [mul_le_mul_of_nonneg_right hmax (show (0 : ℚ) ≤ 2 - 2 * t by linarith),
          mul_pos hp ht0, mul_nonneg (le_of_lt hp) (show (0 : ℚ) ≤ 1 - t by linarith)]
  · -- normal: q = 2^(e-b) * (1 + m / 2^mw)
    have hql : q = 2 ^ ((e : ℤ) - b) * (1 + (m : ℚ) / 2 ^ mw) := by
      rw [hqe, FloatInstance.normal_val, m_limit_add_one]
      norm_num
    have he1 : (1 : ℤ) ≤ (e : ℤ) := by
      have : 1 ≤ e := Nat.one_le_iff_ne_zero.2 he0
      exact_mod_cast this
    have heZ2 : (e : ℤ) ≤ 2 ^ ew - 1 := by
      have h1 : ((e : ℕ) : ℤ) ≤ ((2 ^ ew - 1 : ℕ) : ℤ) := by exact_mod_cast he
      have h2 : ((2 ^ ew - 1 : ℕ) : ℤ) = 2 ^ ew - 1 := by
        rw [Nat.cast_sub (by omega : 1 ≤ 2 ^ ew)]
        push_cast
        ring
      omega
    have hp := two_zpow_pos ((e : ℤ) - b)
    have hfL : (1 : ℚ) ≤ 1 + (m : ℚ) / 2 ^ mw := by
      have : (0 : ℚ) ≤ (m : ℚ) / 2 ^ mw := by positivity
      linarith
    have hfU : 1 + (m : ℚ) / 2 ^ mw ≤ 2 - t := by
      have h2 : (m : ℚ) / 2 ^ mw ≤ (2 ^ mw - 1) / 2 ^ mw := by gcongr
      have h3 : ((2 : ℚ) ^ mw - 1) / 2 ^ mw = 1 - t := by
        rw [htdef]
        field_simp
      linarith
    constructor
    · -- abs_min ≤ q
      have l1 : IEEE754BinaryFormat.abs_min ⟨ew, mw, var⟩ ≤ 2 ^ (1 - b) := by
        rw [IEEE754BinaryFormat.abs_min, IEEE754BinaryFormat.min_e, ← hbdef]
        exact two_zpow_le (by omega)
      have l2 : (2 : ℚ) ^ (1 - b) ≤ 2 ^ ((e : ℤ) - b) := two_zpow_le (by omega)
      have l3 : (2 : ℚ) ^ ((e : ℤ) - b) ≤ q := by
        rw [hql]
        nlinarith [hp, hfL]
      linarith
    · -- q ≤ abs_max, per variant
      cases var
      case standard =>
        have hee : e ≠ 2 ^ ew - 1 := by
          intro hEq
          by_cases hm0' : m = 0
          · have htrue : FloatInstance.is_inf ⟨⟨ew, mw, .standard⟩, 0, e, m⟩ = true := by
              simp [FloatInstance.is_inf, IEEE754BinaryFormat.inf_encoding,
                FloatInstance.e_limit, hEq, hm0']
            rw [htrue] at hinf
            cases hinf
          · have htrue : FloatInstance.is_nan ⟨⟨ew, mw, .standard⟩, 0, e, m⟩ = true := by
              simp [FloatInstance.is_nan, IEEE754BinaryFormat.nan_encoding,
                FloatInstance.e_limit, hEq, hm0']
            rw [htrue] at hnan
            cases hnan
        have heU : (e : ℤ) ≤ 2 ^ ew - 2 := by
          have : e ≠ 2 ^ ew - 1 := hee
          have hne : (e : ℤ) ≠ 2 ^ ew - 1 := by
            intro hEq
            apply this
            omega
          omega
        simp only [IEEE754BinaryFormat.abs_max, IEEE754BinaryFormat.abs_max_std,
          IEEE754BinaryFormat.max_e, IEEE754BinaryFormat.max_e_std,
          zpow_neg_natCast, ← htdef, ← hbdef]
        rw [hql]
        have hmax : (2 : ℚ) ^ ((e : ℤ) - b) ≤ 2 ^ (2 ^ ew - 2 - b) :=
          two_zpow_le (by omega)
        have h2t : (0 : ℚ) < 2 - t := by linarith
        calc 2 ^ ((e : ℤ) - b) * (1 + (m : ℚ) / 2 ^ mw)
            ≤ 2 ^ ((e : ℤ) - b) * (2 - t) := by
              exact mul_le_mul_of_nonneg_left hfU (le_of_lt hp)
        _ ≤ 2 ^ (2 ^ ew - 2 - b) * (2 - t) :=
              mul_le_mul_of_nonneg_right hmax (le_of_lt h2t)
      case gaq custom =>
        simp only [IEEE754BinaryFormat.abs_max, IEEE754BinaryFormat.abs_max_std,
          IEEE754BinaryFormat.max_e, IEEE754BinaryFormat.max_e_std,
          zpow_neg_natCast, ← htdef, ← hbdef]
        rw [hql]
        have hmax : (2 : ℚ) ^ ((e : ℤ) - b) ≤ 2 ^ (2 ^ ew - 2 - b + 1) :=
          two_zpow_le (by omega)
        have h2t : (0 : ℚ) < 2 - t := by linarith
        calc 2 ^ ((e : ℤ) - b) * (1 + (m : ℚ) / 2 ^ mw)
            ≤ 2 ^ ((e : ℤ) - b) * (2 - t) :=
              mul_le_mul_of_nonneg_left hfU (le_of_lt hp)
        _ ≤ 2 ^ (2 ^ ew - 2 - b + 1) * (2 - t) :=
              mul_le_mul_of_nonneg_right hmax (le_of_lt h2t)
      case nai =>
        simp only [IEEE754BinaryFormat.abs_max, IEEE754BinaryFormat.abs_max_std,
          IEEE754BinaryFormat.max_e, IEEE754BinaryFormat.max_e_std,
          zpow_neg_natCast, zpow_sub_natCast, ← htdef, ← hbdef]
        have hrw : (2 : ℚ) ^ (2 ^ ew - 2 - b + 1) / 2 ^ mw =
            2 ^ (2 ^ ew - 2 - b + 1) * t := by
          rw [htdef]; ring
        rw [hrw, hql]
        by_cases hel : e = 2 ^ ew - 1
        · -- top exponent: the mantissa must avoid the NaN pattern
          have hmm : m ≠ 2 ^ mw - 1 := by
            intro hEq
            have htrue : FloatInstance.is_nan ⟨⟨ew, mw, .nai⟩, 0, e, m⟩ = true := by
              simp [FloatInstance.is_nan, IEEE754BinaryFormat.nan_encoding,
                FloatInstance.e_limit, FloatInstance.m_limit, hel, hEq]
            rw [htrue] at hnan
            cases hnan
          have hmU : m ≤ 2 ^ mw - 2 := by omega
          have hmUq : (m : ℚ) ≤ 2 ^ mw - 2 := by
            have h1 : ((m : ℕ) : ℚ) ≤ ((2 ^ mw - 2 : ℕ) : ℚ) := by exact_mod_cast hmU
            have h2 : ((2 ^ mw - 2 : ℕ) : ℚ) = 2 ^ mw - 2 := by
              rw [Nat.cast_sub hcN]
              push_cast
              ring
            linarith [h2 ▸ h1]
          have hfU2 : 1 + (m : ℚ) / 2 ^ mw ≤ 2 - 2 * t := by
            have h2 : (m : ℚ) / 2 ^ mw ≤ (2 ^ mw - 2) / 2 ^ mw := by gcongr
            have h3 : ((2 : ℚ) ^ mw - 2) / 2 ^ mw = 1 - 2 * t := by
              rw [htdef]
              field_simp
            linarith
          have heq : (e : ℤ) - b = 2 ^ ew - 2 - b + 1 := by
            have : (e : ℤ) = 2 ^ ew - 1 := by
              rw [hel]
              rw [Nat.cast_sub (by omega : 1 ≤ 2 ^ ew)]
              push_cast
              ring
            omega
          rw [heq]
          have hp2 := two_zpow_pos (2 ^ ew - 2 - b + 1)
          nlinarith [mul_le_mul_of_nonneg_left hfU2 (le_of_lt hp2)]
        · -- below the top exponent
          have heU : (e : ℤ) ≤ 2 ^ ew - 2 := by
            have hne : (e : ℤ) ≠ 2 ^ ew - 1 := by
              intro hEq
              apply hel
              omega
            omega
          have hmax : (2 : ℚ) ^ ((e : ℤ) - b) ≤ 2 ^ (2 ^ ew - 2 - b) :=
            two_zpow_le (by omega)
          have hhalf : (2 : ℚ) ^ (2 ^ ew - 2 - b) = 2 ^ (2 ^ ew - 2 - b + 1) / 2 := by
            rw [zpow_add₀ (by norm_num : (2 : ℚ) ≠ 0)]
            norm_num
          have h2t : (0 : ℚ) < 2 - t := by linarith
          have hp2 := two_zpow_pos (2 ^ ew - 2 - b + 1)
          have step1 : 2 ^ ((e : ℤ) - b) * (1 + (m : ℚ) / 2 ^ mw) ≤
              2 ^ (2 ^ ew - 2 - b) * (2 - t) := by
            calc 2 ^ ((e : ℤ) - b) * (1 + (m : ℚ) / 2 ^ mw)
                ≤ 2 ^ ((e : ℤ) - b) * (2 - t) :=
                  mul_le_mul_of_nonneg_left hfU (le_of_lt hp)
            _ ≤ 2 ^ (2 ^ ew - 2 - b) * (2 - t) :=
                  mul_le_mul_of_nonneg_right hmax (le_of_lt h2t)
          rw [hhalf] at step1
          nlinarith [step1, hp2, mul_pos hp2 ht0]

/-! Claim theorems. -/

/-- C1: for every valid `FloatInstance` matching neither the Inf nor the NaN
pattern (checked in that priority order before the finite cases), `value`
returns exactly `(-1)^s * 2^(1-bias) * (m / 2^m_width)` when `e = 0`
(subnormal) and exactly `(-1)^s * 2^(e-bias) * (1 + m / 2^m_width)` when
`e > 0` (normal). -/
theorem C1_value_formula (x : FloatInstance) (_hv : x.Valid)
    (hinf : x.is_inf = false) (hnan : x.is_nan = false) :
    x.value = .finite (if x.e = 0 then
        (-1) ^ x.s * 2 ^ (1 - x.format.bias) * ((x.m : ℚ) / 2 ^ x.format.m_width)
      else
        (-1) ^ x.s * 2 ^ ((x.e : ℤ) - x.format.bias) * (1 + (x.m : ℚ) / 2 ^ x.format.m_width)) := by
  simp only [FloatInstance.value, hinf, hnan, Bool.false_eq_true, if_false,
    FloatInstance.is_subnormal]
  by_cases he : x.e = 0
  · simp [he, FloatInstance.subnormal_val, m_limit_add_one]
  · simp [he, FloatInstance.normal_val, m_limit_add_one]

theorem C1_witness :
    (⟨⟨5, 10, .standard⟩, 0, 15, 1⟩ : FloatInstance).Valid ∧
    (⟨⟨5, 10, .standard⟩, 0, 15, 1⟩ : FloatInstance).value = .finite (1025 / 1024) := by
  refine ⟨by decide, ?_⟩
  have h := C1_value_formula ⟨⟨5, 10, .standard⟩, 0, 15, 1⟩ (by decide) (by decide) (by decide)
  rw [h]
  norm_num [IEEE754BinaryFormat.bias]

/-- C2: fields matching the Inf pattern decode to `+inf` when `s = 0` and
`-inf` when `s = 1`; fields matching the NaN pattern decode to NaN regardless
of sign for every NaN-encoding variant; and formats whose Inf tag is `"N/A"`
never decode any valid fields to an infinity. -/
theorem C2_special_values :
    (∀ x : FloatInstance, x.Valid → x.is_inf = true →
      (x.s = 0 → x.value = .posInf) ∧ (x.s = 1 → x.value = .negInf)) ∧
    (∀ x : FloatInstance, x.Valid → x.is_nan = true → x.value = .nan) ∧
    (∀ x : FloatInstance, x.Valid → x.format.inf_encoding = "N/A" →
      x.value ≠ .posInf ∧ x.value ≠ .negInf) := by
  refine ⟨fun x _hv hinf => ⟨fun hs => ?_, fun hs => ?_⟩,
    fun x _hv hnan => ?_, fun x _hv hNA => ?_⟩
  · simp [FloatInstance.value, hinf, hs]
  · simp [FloatInstance.value, hinf, hs]
  · simp [FloatInstance.value, nan_not_inf x hnan, hnan]
  · have hinf : x.is_inf = false := by
      simp only [FloatInstance.is_inf, hNA]
      rw [if_neg (by decide)]
    simp only [FloatInstance.value, hinf, Bool.false_eq_true, if_false]
    constructor <;> split <;> simp <;> split <;> simp

theorem C2_witness :
    (⟨⟨5, 10, .standard⟩, 0, 31, 0⟩ : FloatInstance).value = .posInf ∧
    (⟨⟨5, 10, .standard⟩, 1, 31, 0⟩ : FloatInstance).value = .negInf ∧
    (⟨⟨5, 10, .standard⟩, 1, 31, 5⟩ : FloatInstance).value = .nan ∧
    (⟨⟨4, 3, .nai⟩, 0, 15, 0⟩ : FloatInstance).value ≠ .posInf :=
  ⟨(C2_special_values.1 ⟨⟨5, 10, .standard⟩, 0, 31, 0⟩ (by decide) (by decide)).1 rfl,
   (C2_special_values.1 ⟨⟨5, 10, .standard⟩, 1, 31, 0⟩ (by decide) (by decide)).2 rfl,
   C2_special_values.2.1 ⟨⟨5, 10, .standard⟩, 1, 31, 5⟩ (by decide) (by decide),
   (C2_special_values.2.2 ⟨⟨4, 3, .nai⟩, 0, 15, 0⟩ (by decide) rfl).1⟩

/-- C3: `min_e = 1 - bias` always; `max_e = 2^e_width - 2 - bias` for the
standard format and one greater for the GAQ and NAI variants; `abs_max` is
`2^max_e * (2 - 2^-m_width)`, reduced by one mantissa-step
`2^(max_e - m_width)` exactly for the NAI variant. -/
theorem C3_range_arithmetic (f : IEEE754BinaryFormat)
    (_hew : 1 ≤ f.e_width) (_hmw : 1 ≤ f.m_width) :
    f.min_e = 1 - f.bias ∧
    (f.variant = .standard → f.max_e = 2 ^ f.e_width - 2 - f.bias) ∧
    (∀ b, f.variant = .gaq b → f.max_e = 2 ^ f.e_width - 2 - f.bias + 1) ∧
    (f.variant = .nai → f.max_e = 2 ^ f.e_width - 2 - f.bias + 1) ∧
    (f.variant ≠ .nai → f.abs_max = 2 ^ f.max_e * (2 - 2 ^ (-(f.m_width : ℤ)))) ∧
    (f.variant = .nai →
      f.abs_max = 2 ^ f.max_e * (2 - 2 ^ (-(f.m_width : ℤ))) - 2 ^ (f.max_e - f.m_width)) := by
  rcases f with ⟨ew, mw, var⟩
  cases var <;>
    simp [IEEE754BinaryFormat.min_e, IEEE754BinaryFormat.max_e,
      IEEE754BinaryFormat.max_e_std, IEEE754BinaryFormat.abs_max,
      IEEE754BinaryFormat.abs_max_std]

theorem C3_witness :
    (⟨4, 3, .nai⟩ : IEEE754BinaryFormat).min_e =
      1 - (⟨4, 3, .nai⟩ : IEEE754BinaryFormat).bias ∧
    (⟨4, 3, .nai⟩ : IEEE754BinaryFormat).abs_max =
      2 ^ (⟨4, 3, .nai⟩ : IEEE754BinaryFormat).max_e * (2 - 2 ^ (-(3 : ℤ))) -
        2 ^ ((⟨4, 3, .nai⟩ : IEEE754BinaryFormat).max_e - 3) :=
  ⟨(C3_range_arithmetic ⟨4, 3, .nai⟩ (by decide) (by decide)).1,
   (C3_range_arithmetic ⟨4, 3, .nai⟩ (by decide) (by decide)).2.2.2.2.2 rfl⟩

/-- C4: the claim's two's-complement rule is what `TwosComplementInstance`'s
docstring intends, but `value` compares `uint` against the format's own
(dynamically dispatched, hence scaled) `abs_max`, so for
`ScaledTwosComplementFormat(8, 512)` — `abs_max = 65024` — the bit pattern
`255` decodes to `255` instead of `255 - 2^8 = -1`; the unscaled 8-bit format
decodes it to `-1` as the claim states. -/
theorem C4_scaled_decode_eval :
    TwosComplementInstance.value ⟨.scaled 8 512, 255⟩ = 255 ∧
    TwosComplementInstance.value ⟨.base 8, 255⟩ = -1 ∧
    (255 : ℚ) ≠ -1 := by
  refine ⟨?_, ?_, by norm_num⟩ <;>
    norm_num [TwosComplementInstance.value, TwosComplementFormat.abs_max,
      TwosComplementFormat.width]

/-- C7 counterexample: for `GAQProposedFormat` (here E4M3 with bias 8) the
negative-zero bit pattern `(s,e,m) = (1,0,0)` is the format's NaN pattern, so
`value` returns NaN, not numeric zero, refuting "both signed-zero bit
patterns decode to numeric zero" for every variant. -/
theorem C7_counterexample :
    FloatInstance.value ⟨⟨4, 3, .gaq 8⟩, 1, 0, 0⟩ = .nan ∧
    FloatVal.nan ≠ FloatVal.finite 0 := by
  refine ⟨by decide, by simp⟩

/-- C7 amended: the positive-zero pattern `(0,0,0)` decodes to numeric zero
for every variant; the negative-zero pattern `(1,0,0)` decodes to numeric
zero for the standard and NAI variants, but is the NaN pattern of the GAQ
variant. -/
theorem C7_amended_signed_zero (f : IEEE754BinaryFormat) (hew : 1 ≤ f.e_width) :
    FloatInstance.value ⟨f, 0, 0, 0⟩ = .finite 0 ∧
    ((∀ b, f.variant ≠ .gaq b) → FloatInstance.value ⟨f, 1, 0, 0⟩ = .finite 0) ∧
    (∀ b, f.variant = .gaq b → FloatInstance.value ⟨f, 1, 0, 0⟩ = .nan) := by
  rcases f with ⟨ew, mw, var⟩
  have h2 : 2 ≤ 2 ^ ew := by
    calc 2 = 2 ^ 1 := rfl
    _ ≤ 2 ^ ew := Nat.pow_le_pow_right (by norm_num) hew
  have hez : ¬(0 = 2 ^ ew - 1) := by omega
  cases var
  case standard =>
    refine ⟨?_, fun _ => ?_, fun b hb => by cases hb⟩ <;>
      simp [FloatInstance.value, FloatInstance.is_inf, FloatInstance.is_nan,
        IEEE754BinaryFormat.inf_encoding, IEEE754BinaryFormat.nan_encoding,
        FloatInstance.is_subnormal, FloatInstance.subnormal_val,
        FloatInstance.e_limit, hez]
  case gaq b =>
    refine ⟨?_, fun h => absurd rfl (h b), fun b' _ => ?_⟩ <;>
      simp [FloatInstance.value, FloatInstance.is_inf, FloatInstance.is_nan,
        IEEE754BinaryFormat.inf_encoding, IEEE754BinaryFormat.nan_encoding,
        FloatInstance.is_subnormal, FloatInstance.subnormal_val]
  case nai =>
    refine ⟨?_, fun _ => ?_, fun b hb => by cases hb⟩ <;>
      simp [FloatInstance.value, FloatInstance.is_inf, FloatInstance.is_nan,
        IEEE754BinaryFormat.inf_encoding, IEEE754BinaryFormat.nan_encoding,
        FloatInstance.is_subnormal, FloatInstance.subnormal_val,
        FloatInstance.e_limit, hez]

theorem C7_witness :
    FloatInstance.value ⟨⟨5, 10, .standard⟩, 0, 0, 0⟩ = .finite 0 ∧
    FloatInstance.value ⟨⟨5, 10, .standard⟩, 1, 0, 0⟩ = .finite 0 :=
  ⟨(C7_amended_signed_zero ⟨5, 10, .standard⟩ (by decide)).1,
   (C7_amended_signed_zero ⟨5, 10, .standard⟩ (by decide)).2.1
     (fun _ h => FloatVariant.noConfusion h)⟩

/-- C8 counterexample: `FloatInstance.__eq__` passes the other operand raw to
`float.__eq__`, which yields `NotImplemented` when the operand is another
instance, so Python compares two instances by object identity: the distinct
`+0` and `-0` half-precision instances decode to the same value `0` yet
compare unequal, refuting "A == B iff A's decoded value equals B's". -/
theorem C8_counterexample :
    FloatInstance.eq_inst ⟨⟨5, 10, .standard⟩, 0, 0, 0⟩ ⟨⟨5, 10, .standard⟩, 1, 0, 0⟩ = false ∧
    FloatInstance.value ⟨⟨5, 10, .standard⟩, 0, 0, 0⟩ = .finite 0 ∧
    FloatInstance.value ⟨⟨5, 10, .standard⟩, 1, 0, 0⟩ = .finite 0 := by
  refine ⟨by decide, ?_, ?_⟩ <;>
    norm_num [FloatInstance.value, FloatInstance.is_inf, FloatInstance.is_nan,
      FloatInstance.is_subnormal, FloatInstance.subnormal_val, FloatInstance.m_limit,
      FloatInstance.e_limit, IEEE754BinaryFormat.inf_encoding,
      IEEE754BinaryFormat.nan_encoding, IEEE754BinaryFormat.bias]

/-- C8 amended: comparisons whose other operand is a decoded number are
value-based — `A == r` holds iff `A`'s decoded value IEEE-equals `r`, and
`A < r` iff `A`'s decoded value is less than `r` — for float and integer
instances alike; instance-to-instance comparison is not value-based (the
counterexample shows `==` degrading to identity). -/
theorem C8_amended_comparisons :
    (∀ (a : FloatInstance) (w : FloatVal), a.Valid → w ≠ .nan →
      (a.eq_float w = true ↔ a.value = w) ∧
      (a.lt_float w = true ↔ FloatVal.Lt a.value w)) ∧
    (∀ (b : TwosComplementInstance) (r : ℚ), b.Valid →
      (b.eq_num r = true ↔ b.value = r) ∧
      (b.lt_num r = true ↔ b.value < r)) := by
  constructor
  · intro a w _hv hw
    cases h : a.value <;> cases w <;>
      simp_all [FloatInstance.eq_float, FloatInstance.lt_float,
        FloatVal.feq, FloatVal.flt, FloatVal.Lt, h]
  · intro b r _hv
    constructor
    · simp [TwosComplementInstance.eq_num]
    · simp [TwosComplementInstance.lt_num]

theorem C8_witness :
    ((⟨⟨5, 10, .standard⟩, 0, 15, 0⟩ : FloatInstance).eq_float (.finite 1) = true ↔
      (⟨⟨5, 10, .standard⟩, 0, 15, 0⟩ : FloatInstance).value = .finite 1) ∧
    ((⟨.base 8, 255⟩ : TwosComplementInstance).lt_num 0 = true ↔
      (⟨.base 8, 255⟩ : TwosComplementInstance).value < 0) :=
  ⟨(C8_amended_comparisons.1 ⟨⟨5, 10, .standard⟩, 0, 15, 0⟩ (.finite 1)
      (by decide) (by simp)).1,
   (C8_amended_comparisons.2 ⟨.base 8, 255⟩ 0 (by decide)).2⟩

/-- C10 counterexample: for the standard format with `e_width = 1` and
`m_width = 1`, `abs_max = 3/2`, but the valid field values are exhausted by
`s, e, m ∈ {0, 1}` (here `e_limit = m_limit = 1`) and none of those eight bit
patterns decodes to `3/2` — every all-ones-exponent pattern is Inf or NaN —
so the declared bound is not attained. -/
theorem C10_counterexample :
    IEEE754BinaryFormat.abs_max ⟨1, 1, .standard⟩ = 3 / 2 ∧
    FloatInstance.value ⟨⟨1, 1, .standard⟩, 0, 0, 0⟩ ≠ .finite (3 / 2) ∧
    FloatInstance.value ⟨⟨1, 1, .standard⟩, 0, 0, 1⟩ ≠ .finite (3 / 2) ∧
    FloatInstance.value ⟨⟨1, 1, .standard⟩, 0, 1, 0⟩ ≠ .finite (3 / 2) ∧
    FloatInstance.value ⟨⟨1, 1, .standard⟩, 0, 1, 1⟩ ≠ .finite (3 / 2) ∧
    FloatInstance.value ⟨⟨1, 1, .standard⟩, 1, 0, 0⟩ ≠ .finite (3 / 2) ∧
    FloatInstance.value ⟨⟨1, 1, .standard⟩, 1, 0, 1⟩ ≠ .finite (3 / 2) ∧
    FloatInstance.value ⟨⟨1, 1, .standard⟩, 1, 1, 0⟩ ≠ .finite (3 / 2) ∧
    FloatInstance.value ⟨⟨1, 1, .standard⟩, 1, 1, 1⟩ ≠ .finite (3 / 2) := by
  refine ⟨?_, ?_, ?_, ?_, ?_, ?_, ?_, ?_, ?_⟩ <;>
    norm_num [FloatInstance.value, FloatInstance.is_inf, FloatInstance.is_nan,
      FloatInstance.is_subnormal, FloatInstance.subnormal_val, FloatInstance.normal_val,
      FloatInstance.m_limit, FloatInstance.e_limit, IEEE754BinaryFormat.inf_encoding,
      IEEE754BinaryFormat.nan_encoding, IEEE754BinaryFormat.bias,
      IEEE754BinaryFormat.abs_max, IEEE754BinaryFormat.abs_max_std,
      IEEE754BinaryFormat.max_e, IEEE754BinaryFormat.max_e_std] <;>
    exact fun h => nomatch h

/-- C10 amended: for every variant with `e_width ≥ 1` and `m_width ≥ 1`,
`abs_min` is attained by a valid instance and the bounds are sound (every
valid instance with a finite positive decoded value lies in
`[abs_min, abs_max]`); `abs_max` is attained as well, except that for the
standard variant this additionally requires `e_width ≥ 2` (the
counterexample shows it fails at `e_width = 1`). -/
theorem C10_amended_bounds (f : IEEE754BinaryFormat) (hew : 1 ≤ f.e_width)
    (hmw : 1 ≤ f.m_width) :
    (∃ x : FloatInstance, x.format = f ∧ x.Valid ∧ x.value = .finite f.abs_min) ∧
    ((f.variant = .standard → 2 ≤ f.e_width) →
      ∃ x : FloatInstance, x.format = f ∧ x.Valid ∧ x.value = .finite f.abs_max) ∧
    (∀ x : FloatInstance, x.format = f → x.Valid → ∀ q : ℚ, x.value = .finite q →
      0 < q → f.abs_min ≤ q ∧ q ≤ f.abs_max) := by
  rcases f with ⟨ew, mw, var⟩
  refine ⟨?_, ?_, ?_⟩
  · obtain ⟨hv, hval⟩ := abs_min_attained ⟨ew, mw, var⟩ hew hmw
    exact ⟨_, rfl, hv, hval⟩
  · intro hstd
    cases var
    case standard =>
      obtain ⟨hv, hval⟩ := abs_max_attained_std ew mw (hstd rfl) hmw
      exact ⟨_, rfl, hv, hval⟩
    case gaq bC =>
      obtain ⟨hv, hval⟩ := abs_max_attained_gaq ew mw bC hew hmw
      exact ⟨_, rfl, hv, hval⟩
    case nai =>
      obtain ⟨hv, hval⟩ := abs_max_attained_nai ew mw hew hmw
      exact ⟨_, rfl, hv, hval⟩
  · rintro ⟨g, s, e, m⟩ hfmt hv q hval hq
    have hg : g = ⟨ew, mw, var⟩ := hfmt
    subst hg
    exact value_bounds ew mw var hew hmw s e m hv q hval hq

theorem C10_witness :
    IEEE754BinaryFormat.abs_min ⟨5, 10, .standard⟩ ≤ 1 ∧
    (1 : ℚ) ≤ IEEE754BinaryFormat.abs_max ⟨5, 10, .standard⟩ :=
  (C10_amended_bounds ⟨5, 10, .standard⟩ (by norm_num) (by norm_num)).2.2
    ⟨⟨5, 10, .standard⟩, 0, 15, 0⟩ rfl (by decide) 1
    (by norm_num [FloatInstance.value, FloatInstance.is_inf, FloatInstance.is_nan,
      FloatInstance.is_subnormal, FloatInstance.normal_val, FloatInstance.m_limit,
      FloatInstance.e_limit, IEEE754BinaryFormat.inf_encoding,
      IEEE754BinaryFormat.nan_encoding, IEEE754BinaryFormat.bias])
    (by norm_num)

theorem fp16_min_subnormal_check :
    FloatInstance.value ⟨⟨5, 10, .standard⟩, 0, 0, 1⟩ = .finite (1 / 16777216) := by
  norm_num [FloatInstance.value, FloatInstance.is_inf, FloatInstance.is_nan,
    FloatInstance.is_subnormal, FloatInstance.subnormal_val, FloatInstance.m_limit,
    FloatInstance.e_limit, IEEE754BinaryFormat.inf_encoding, IEEE754BinaryFormat.nan_encoding,
    IEEE754BinaryFormat.bias]

theorem fp16_third_check :
    FloatInstance.value ⟨⟨5, 10, .standard⟩, 0, 13, 341⟩ = .finite (1365 / 4096) := by
  norm_num [FloatInstance.value, FloatInstance.is_inf, FloatInstance.is_nan,
    FloatInstance.is_subnormal, FloatInstance.normal_val, FloatInstance.m_limit,
    FloatInstance.e_limit, IEEE754BinaryFormat.inf_encoding, IEEE754BinaryFormat.nan_encoding,
    IEEE754BinaryFormat.bias]

theorem fp16_max_check :
    FloatInstance.value ⟨⟨5, 10, .standard⟩, 0, 30, 1023⟩ = .finite 65504 := by
  norm_num [FloatInstance.value, FloatInstance.is_inf, FloatInstance.is_nan,
    FloatInstance.is_subnormal, FloatInstance.normal_val, FloatInstance.m_limit,
    FloatInstance.e_limit, IEEE754BinaryFormat.inf_encoding, IEEE754BinaryFormat.nan_encoding,
    IEEE754BinaryFormat.bias]

theorem fp16_neg_inf_check :
    FloatInstance.value ⟨⟨5, 10, .standard⟩, 1, 31, 0⟩ = .negInf := by
  norm_num [FloatInstance.value, FloatInstance.is_inf,
    FloatInstance.e_limit, IEEE754BinaryFormat.inf_encoding]

theorem fp16_nan_check :
    FloatInstance.value ⟨⟨5, 10, .standard⟩, 0, 31, 5⟩ = .nan := by
  norm_num [FloatInstance.value, FloatInstance.is_inf, FloatInstance.is_nan,
    FloatInstance.m_limit, FloatInstance.e_limit, IEEE754BinaryFormat.inf_encoding,
    IEEE754BinaryFormat.nan_encoding]

theorem int8_wraparound_check : TwosComplementInstance.value ⟨.base 8, 255⟩ = -1 := by
  norm_num [TwosComplementInstance.value, TwosComplementFormat.abs_max,
    TwosComplementFormat.width]

theorem int8_scaled_check : TwosComplementInstance.value ⟨.scaled 8 512, 255⟩ = 255 := by
  norm_num [TwosComplementInstance.value, TwosComplementFormat.abs_max]

theorem log_pos_floats_eval : log_pos_floats ⟨2, 3, .standard⟩ 8 =
    some [1/8, 1/4, 3/8, 1/2, 5/8, 3/4, 7/8, 1, 3/2, 2, 3] := by
  norm_num [log_pos_floats, List.range', FloatInstance.value, FloatInstance.is_inf,
    FloatInstance.is_nan, FloatInstance.is_subnormal, FloatInstance.subnormal_val,
    FloatInstance.normal_val, FloatInstance.m_limit, FloatInstance.e_limit,
    IEEE754BinaryFormat.inf_encoding, IEEE754BinaryFormat.nan_encoding,
    IEEE754BinaryFormat.bias, is_valid_number, FloatVal.toQ, List.filterMap_cons]

theorem np_arange_eval : np_arange (-3) 3 (1/4) = [-3, -11/4, -5/2, -9/4, -2, -7/4,
    -3/2, -5/4, -1, -3/4, -1/2, -1/4, 0, 1/4, 1/2, 3/4, 1, 5/4, 3/2, 7/4, 2, 9/4,
    5/2, 11/4] := by
  norm_num [np_arange]
  rw [show ((24 : ℤ)).toNat = 24 from rfl]
  simp only [List.range_succ, List.range_zero, List.nil_append, List.cons_append,
    List.flatMap_cons, List.flatMap_nil, List.map_cons, List.map_nil, List.append_nil]
  norm_num

theorem getD_map_range (g : ℕ → ℕ) (n i : ℕ) (h : i < n) :
    ((List.range n).map g).getD i 0 = g i := by
  rw [List.getD_eq_getElem _ _ (by simpa using h), List.getElem_map, List.getElem_range]

theorem getD_zipWith (g : ℚ → ℕ → ℕ) (as : List ℚ) (bs : List ℕ) (i : ℕ)
    (ha : i < as.length) (hb : i < bs.length) :
    (List.zipWith g as bs).getD i 0 = g (as.getD i 0) (bs.getD i 0) := by
  rw [List.getD_eq_getElem _ _ (by rw [List.length_zipWith]; omega),
    List.getD_eq_getElem _ _ ha, List.getD_eq_getElem _ _ hb, List.getElem_zipWith]

theorem getD_dropLast (as : List ℚ) (i : ℕ) (h : i < as.length - 1) :
    as.dropLast.getD i 0 = as.getD i 0 := by
  rw [List.getD_eq_getElem _ _ (by rw [List.length_dropLast]; omega),
    List.getD_eq_getElem _ _ (by omega), List.getElem_dropLast]

theorem np_arange_getD (start stop w : ℚ) (j : ℕ) (hj : j < (np_arange start stop w).length) :
    (np_arange start stop w).getD j 0 = start + j * w := by
  rw [np_arange] at hj ⊢
  rw [List.getD_eq_getElem _ _ hj, List.getElem_map, List.getElem_range]

theorem length_histCounts (xs edges : List ℚ) :
    (histCounts xs edges).length = edges.length - 1 := by
  rw [histCounts, List.length_map, List.length_range]

/-- C5 counterexample: for the standard 2-bit-exponent, 3-bit-mantissa format
with `sample_count = 8` (so `sampling_factor = 4`) and the default bin width
`1/4`, the bin with edges `[-1/4, 0)` has its upper edge at
`log2(abs_min_normal) = 0` and raw sampled count `1`, yet `_count_float_bins`
leaves it uncorrected (corrected count `1`, not `1 * 4`), because the
`np.where` condition tests the lower edge, refuting the claim's
upper-edge rule. -/
theorem C5_counterexample :
    IEEE754BinaryFormat.min_e ⟨2, 3, .standard⟩ = 0 ∧
    (np_arange (-3) 3 (1/4)).getD 11 0 = -(1/4) ∧
    (np_arange (-3) 3 (1/4)).getD 12 0 = 0 ∧
    max (2 ^ (2 + 3) / 8) 1 = 4 ∧
    (log_pos_floats ⟨2, 3, .standard⟩ 8).map
      (fun l => (histCounts l (np_arange (-3) 3 (1/4))).getD 11 0) = some 1 ∧
    (count_float_bins ⟨2, 3, .standard⟩ (np_arange (-3) 3 (1/4)) 8).map
      (fun r => r.1.getD 11 0) = some 1 ∧
    (1 : ℕ) ≠ 1 * 4 := by
  have hraw : (histCounts [1/8, 1/4, 3/8, 1/2, 5/8, 3/4, 7/8, 1, 3/2, 2, 3]
      (np_arange (-3) 3 (1/4))).getD 11 0 = 1 := by
    rw [np_arange_eval, histCounts]
    rw [getD_map_range _ _ _ (by norm_num)]
    norm_num [List.getD, binCount, List.countP, List.countP.go,
      edge_le_log, log_lt_edge, log_le_edge]
  refine ⟨by norm_num [IEEE754BinaryFormat.min_e, IEEE754BinaryFormat.bias], ?_, ?_,
    by norm_num, ?_, ?_, by norm_num⟩
  · rw [np_arange_eval]
    norm_num [List.getD]
  · rw [np_arange_eval]
    norm_num [List.getD]
  · rw [log_pos_floats_eval]
    simp only [Option.map_some']
    rw [hraw]
  · rw [count_float_bins, log_pos_floats_eval]
    simp only [Option.map_some']
    rw [getD_zipWith _ _ _ 11
      (by rw [List.length_dropLast, np_arange_eval]; norm_num)
      (by rw [length_histCounts, np_arange_eval]; norm_num)]
    rw [getD_dropLast _ _ (by rw [np_arange_eval]; norm_num), hraw]
    have hlow : (np_arange (-3) 3 (1/4)).getD 11 0 <
        ((IEEE754BinaryFormat.min_e ⟨2, 3, .standard⟩ : ℤ) : ℚ) := by
      rw [np_arange_eval]
      norm_num [List.getD, IEEE754BinaryFormat.min_e, IEEE754BinaryFormat.bias]
    rw [if_pos hlow]

/-- C5 amended: in `_count_float_bins`, the bin whose LOWER edge lies at or
above `log2(abs_min_normal)` has its raw sampled count multiplied by
`sampling_factor = max(floor(2^(e_width+m_width) / sample_count), 1)`; a bin
entirely in the subnormal range (upper edge at or below that threshold, for a
positive bin width) keeps its raw count; and for integer formats no
correction factor is ever applied. -/
theorem C5_amended_correction :
    (∀ (fmt : IEEE754BinaryFormat) (start stop w : ℚ) (sc : ℕ) (floats : List ℚ)
      (i : ℕ), 0 < w → log_pos_floats fmt sc = some floats →
      i + 1 < (np_arange start stop w).length →
      (((fmt.min_e : ℚ) ≤ (np_arange start stop w).getD i 0 →
        (count_float_bins fmt (np_arange start stop w) sc).map (fun r => r.1.getD i 0) =
          some ((histCounts floats (np_arange start stop w)).getD i 0 *
            max (2 ^ (fmt.e_width + fmt.m_width) / sc) 1)) ∧
       ((np_arange start stop w).getD (i + 1) 0 ≤ (fmt.min_e : ℚ) →
        (count_float_bins fmt (np_arange start stop w) sc).map (fun r => r.1.getD i 0) =
          some ((histCounts floats (np_arange start stop w)).getD i 0)))) ∧
    (∀ (fmt : TwosComplementFormat) (edges : List ℚ),
      count_int_bins fmt edges = (histCounts (log_pos_ints fmt) edges, edges)) := by
  constructor
  · intro fmt start stop w sc floats i hw hf hi
    have hcore : (count_float_bins fmt (np_arange start stop w) sc).map
        (fun r => r.1.getD i 0) =
        some (if (np_arange start stop w).getD i 0 < (fmt.min_e : ℚ)
          then (histCounts floats (np_arange start stop w)).getD i 0
          else (histCounts floats (np_arange start stop w)).getD i 0 *
            max (2 ^ (fmt.e_width + fmt.m_width) / sc) 1) := by
      rw [count_float_bins, hf]
      simp only [Option.map_some']
      rw [getD_zipWith _ _ _ i (by rw [List.length_dropLast]; omega)
        (by rw [length_histCounts]; omega)]
      rw [getD_dropLast _ _ (by omega)]
    refine ⟨fun hge => ?_, fun hle => ?_⟩
    · rw [hcore, if_neg (not_lt.2 hge)]
    · have hlow : (np_arange start stop w).getD i 0 < (fmt.min_e : ℚ) := by
        have h1 := np_arange_getD start stop w i (by omega)
        have h2 := np_arange_getD start stop w (i + 1) hi
        have h3 : (np_arange start stop w).getD i 0 <
            (np_arange start stop w).getD (i + 1) 0 := by
          rw [h1, h2]
          push_cast
          nlinarith [hw]
        linarith
      rw [hcore, if_pos hlow]
  · intro fmt edges
    rfl

theorem C5_witness :
    (count_float_bins ⟨2, 3, .standard⟩ (np_arange (-3) 3 (1/4)) 8).map
      (fun r => r.1.getD 12 0) =
    some ((histCounts [1/8, 1/4, 3/8, 1/2, 5/8, 3/4, 7/8, 1, 3/2, 2, 3]
        (np_arange (-3) 3 (1/4))).getD 12 0 * max (2 ^ (2 + 3) / 8) 1) :=
  ((C5_amended_correction.1 ⟨2, 3, .standard⟩ (-3) 3 (1/4) 8
      [1/8, 1/4, 3/8, 1/2, 5/8, 3/4, 7/8, 1, 3/2, 2, 3] 12 (by norm_num)
      log_pos_floats_eval (by rw [np_arange_eval]; norm_num)).1
    (by rw [np_arange_eval]
        norm_num [List.getD, IEEE754BinaryFormat.min_e, IEEE754BinaryFormat.bias]))

/-- C6 counterexample: for the standard 1-bit-exponent format and
`sample_count = 1` (≥ 1 as the claim allows), `mantissa_samples_per_exponent
= 1 // 2 = 0`, so the `//` computing the stride raises `ZeroDivisionError`
and no value sequence is produced at all. -/
theorem C6_counterexample : log_pos_floats ⟨1, 1, .standard⟩ 1 = none := rfl

/-- C6 amended: whenever `sample_count ≥ 2^e_width` (so the stride is
defined), `_log_pos_floats` succeeds, and a rational `v` is in the produced
(antilog-represented) sequence iff it is the finite decoded value of a
subnormal `(0, 0, m)` with `m ∈ [1, 2^m_width)` — subnormals are exhaustive —
or of a normal `(0, e, k·step)` with `e ∈ [1, 2^e_width)` and `k·step <
2^m_width`, where `step = max(2^m_width // (sample_count // 2^e_width), 1)`;
NaN and infinite decoded values are excluded (only `finite` values pass the
filter). -/
theorem C6_amended_enumeration (fmt : IEEE754BinaryFormat) (sc : ℕ)
    (hsc : 2 ^ fmt.e_width ≤ sc) :
    ∃ l, log_pos_floats fmt sc = some l ∧
      ∀ v : ℚ, v ∈ l ↔
        ((∃ m, 1 ≤ m ∧ m < 2 ^ fmt.m_width ∧
            FloatInstance.value ⟨fmt, 0, 0, m⟩ = .finite v) ∨
         (∃ e k, 1 ≤ e ∧ e < 2 ^ fmt.e_width ∧
            k * max (2 ^ fmt.m_width / (sc / 2 ^ fmt.e_width)) 1 < 2 ^ fmt.m_width ∧
            FloatInstance.value ⟨fmt, 0, e,
              k * max (2 ^ fmt.m_width / (sc / 2 ^ fmt.e_width)) 1⟩ = .finite v)) := by
  have hpow : 0 < 2 ^ fmt.e_width := Nat.pos_pow_of_pos _ (by norm_num)
  have hms : 1 ≤ sc / 2 ^ fmt.e_width := (Nat.one_le_div_iff hpow).2 hsc
  have hne : ¬(sc / 2 ^ fmt.e_width = 0) := by omega
  have hmpow : 1 ≤ 2 ^ fmt.m_width := Nat.one_le_two_pow
  have hstep1 : 1 ≤ max (2 ^ fmt.m_width / (sc / 2 ^ fmt.e_width)) 1 := le_max_right _ _
  have hepow : 1 ≤ 2 ^ fmt.e_width := by omega
  have hkey : ∀ i : ℕ,
      i < (2 ^ fmt.m_width + max (2 ^ fmt.m_width / (sc / 2 ^ fmt.e_width)) 1 - 1) /
          max (2 ^ fmt.m_width / (sc / 2 ^ fmt.e_width)) 1 ↔
      i * max (2 ^ fmt.m_width / (sc / 2 ^ fmt.e_width)) 1 < 2 ^ fmt.m_width := by
    intro i
    set st := max (2 ^ fmt.m_width / (sc / 2 ^ fmt.e_width)) 1 with hst
    constructor
    · intro h
      have h2 : (i + 1) * st ≤ 2 ^ fmt.m_width + st - 1 :=
        (Nat.le_div_iff_mul_le (by omega)).1 (Nat.succ_le_of_lt h)
      have h3 : i * st + st ≤ 2 ^ fmt.m_width + st - 1 := by
        calc i * st + st = (i + 1) * st := by ring
        _ ≤ _ := h2
      omega
    · intro h
      have h3 : i * st + st ≤ 2 ^ fmt.m_width + st - 1 := by omega
      have h2 : (i + 1) * st ≤ 2 ^ fmt.m_width + st - 1 := by
        calc (i + 1) * st = i * st + st := by ring
        _ ≤ _ := h3
      exact Nat.lt_of_succ_le ((Nat.le_div_iff_mul_le (by omega)).2 h2)
  refine ⟨(((List.range' 1 (2 ^ fmt.m_width - 1) 1).map fun m =>
      FloatInstance.value ⟨fmt, 0, 0, m⟩) ++
    ((List.range' 1 (2 ^ fmt.e_width - 1) 1).flatMap fun e =>
      (List.range' 0
          ((2 ^ fmt.m_width + max (2 ^ fmt.m_width / (sc / 2 ^ fmt.e_width)) 1 - 1) /
            max (2 ^ fmt.m_width / (sc / 2 ^ fmt.e_width)) 1)
          (max (2 ^ fmt.m_width / (sc / 2 ^ fmt.e_width)) 1)).map fun m =>
        FloatInstance.value ⟨fmt, 0, e, m⟩)).filter is_valid_number
    |>.filterMap FloatVal.toQ, ?_, ?_⟩
  · simp only [log_pos_floats, hne, if_false]
  · intro v
    constructor
    · intro hv
      obtain ⟨fv, hfv, htoq⟩ := List.mem_filterMap.1 hv
      obtain ⟨hfv_mem, _⟩ := List.mem_filter.1 hfv
      have hfin : fv = .finite v := by
        cases fv <;> simp_all [FloatVal.toQ]
      rw [hfin] at hfv_mem
      rcases List.mem_append.1 hfv_mem with hsub | hnorm
      · left
        obtain ⟨m, hm_mem, hm_eq⟩ := List.mem_map.1 hsub
        rw [List.mem_range'_1] at hm_mem
        exact ⟨m, hm_mem.1, by omega, hm_eq⟩
      · right
        obtain ⟨e, he_mem, hmem2⟩ := List.mem_flatMap.1 hnorm
        obtain ⟨m, hm_mem, hm_eq⟩ := List.mem_map.1 hmem2
        rw [List.mem_range'_1] at he_mem
        rw [List.mem_range'] at hm_mem
        obtain ⟨i, hi, hmi⟩ := hm_mem
        rw [Nat.zero_add, Nat.mul_comm] at hmi
        subst hmi
        exact ⟨e, i, he_mem.1, by omega, (hkey i).1 hi, hm_eq⟩
    · intro hv
      refine List.mem_filterMap.2 ⟨.finite v, List.mem_filter.2 ⟨?_, by
        simp [is_valid_number]⟩, by simp [FloatVal.toQ]⟩
      rcases hv with ⟨m, h1, h2, hval⟩ | ⟨e, k, h1, h2, h3, hval⟩
      · exact List.mem_append_left _
          (List.mem_map.2 ⟨m, List.mem_range'_1.2 ⟨h1, by omega⟩, hval⟩)
      · refine List.mem_append_right _ (List.mem_flatMap.2
          ⟨e, List.mem_range'_1.2 ⟨h1, by omega⟩, List.mem_map.2
            ⟨k * max (2 ^ fmt.m_width / (sc / 2 ^ fmt.e_width)) 1,
             List.mem_range'.2 ⟨k, (hkey k).2 (by rw [Nat.mul_comm] at h3 ⊢; exact h3),
               by rw [Nat.zero_add, Nat.mul_comm]⟩, hval⟩⟩)

theorem C6_witness :
    (log_pos_floats ⟨2, 3, .standard⟩ 8).map
      (fun l => decide ((3/2 : ℚ) ∈ l)) = some true := by
  obtain ⟨l, hl, hmem⟩ := C6_amended_enumeration ⟨2, 3, .standard⟩ 8 (by norm_num)
  rw [hl, Option.map_some']
  have h32 : (3/2 : ℚ) ∈ l := by
    refine (hmem (3/2)).2 (Or.inr ⟨1, 1, le_refl 1, by norm_num, by norm_num, ?_⟩)
    norm_num [FloatInstance.value, FloatInstance.is_inf, FloatInstance.is_nan,
      FloatInstance.is_subnormal, FloatInstance.normal_val, FloatInstance.m_limit,
      FloatInstance.e_limit, IEEE754BinaryFormat.inf_encoding,
      IEEE754BinaryFormat.nan_encoding, IEEE754BinaryFormat.bias]
  rw [decide_eq_true h32]

theorem np_ceil_log2_of_pos (q : ℚ) (hq : 0 < q) : ∃ z, np_ceil_log2 q = some z := by
  have h : ¬(q.num ≤ 0) := not_le.2 (Rat.num_pos.2 hq)
  simp only [np_ceil_log2, h, if_false]
  split <;> exact ⟨_, rfl⟩

theorem abs_max_pos (f : IEEE754BinaryFormat) (hmw : 1 ≤ f.m_width) :
    0 < f.abs_max := by
  obtain ⟨ew, mw, var⟩ := f
  replace hmw : 1 ≤ mw := hmw
  have hc : (0 : ℚ) < 2 ^ mw := by positivity
  have h2 : (2 : ℕ) ≤ 2 ^ mw := by
    calc 2 = 2 ^ 1 := rfl
    _ ≤ 2 ^ mw := Nat.pow_le_pow_right (by norm_num) hmw
  have h2q : (2 : ℚ) ≤ 2 ^ mw := by exact_mod_cast h2
  have ht : (1 : ℚ) / 2 ^ mw ≤ 1 / 2 := by
    rw [div_le_div_iff hc (by norm_num)]
    linarith
  cases var
  case standard =>
    simp only [IEEE754BinaryFormat.abs_max, IEEE754BinaryFormat.abs_max_std,
      zpow_neg_natCast]
    have hM := two_zpow_pos (IEEE754BinaryFormat.max_e ⟨ew, mw, .standard⟩)
    nlinarith [mul_pos hM (show (0 : ℚ) < 2 - 1 / 2 ^ mw by linarith)]
  case gaq b =>
    simp only [IEEE754BinaryFormat.abs_max, IEEE754BinaryFormat.abs_max_std,
      zpow_neg_natCast]
    have hM := two_zpow_pos (IEEE754BinaryFormat.max_e ⟨ew, mw, .gaq b⟩)
    nlinarith [mul_pos hM (show (0 : ℚ) < 2 - 1 / 2 ^ mw by linarith)]
  case nai =>
    simp only [IEEE754BinaryFormat.abs_max, IEEE754BinaryFormat.abs_max_std,
      zpow_neg_natCast, zpow_sub_natCast]
    have hM := two_zpow_pos (IEEE754BinaryFormat.max_e ⟨ew, mw, .nai⟩)
    have key : (2 : ℚ) ^ (IEEE754BinaryFormat.max_e ⟨ew, mw, .nai⟩) * (2 - 1 / 2 ^ mw) -
        2 ^ (IEEE754BinaryFormat.max_e ⟨ew, mw, .nai⟩) / 2 ^ mw =
        2 ^ (IEEE754BinaryFormat.max_e ⟨ew, mw, .nai⟩) * (2 - 2 * (1 / 2 ^ mw)) := by
      ring
    rw [key]
    exact mul_pos hM (by linarith)

theorem exists_of_mem_zipWith {α β γ : Type} (g : α → β → γ) :
    ∀ (as : List α) (bs : List β) (c : γ), c ∈ List.zipWith g as bs →
      ∃ a b, a ∈ as ∧ b ∈ bs ∧ c = g a b := by
  intro as
  induction as with
  | nil => intro bs c h; simp at h
  | cons a as ih =>
    intro bs c h
    cases bs with
    | nil => simp at h
    | cons b bs =>
      rw [List.zipWith_cons_cons] at h
      rcases List.mem_cons.1 h with h | h
      · exact ⟨a, b, List.mem_cons_self a as, List.mem_cons_self b bs, h⟩
      · obtain ⟨a2, b2, ha, hb, hc⟩ := ih bs c h
        exact ⟨a2, b2, List.mem_cons_of_mem _ ha, List.mem_cons_of_mem _ hb, hc⟩

theorem rows_wellformed (edges : List ℚ) (counts : List ℕ) :
    ∀ r ∈ List.zipWith (fun s p => (s, p.1, p.2))
      edges.dropLast (edges.tail.zip (counts.map np_log2_count)),
      r.2.2 = Log2Count.negInf ∨ ∃ n, 0 < n ∧ r.2.2 = Log2Count.log2 n := by
  intro r hr
  obtain ⟨a, p, _, hp, hr_eq⟩ := exists_of_mem_zipWith _ _ _ _ hr
  obtain ⟨_, hp2⟩ := List.of_mem_zip hp
  obtain ⟨n, _, hn_eq⟩ := List.mem_map.1 hp2
  subst hr_eq
  rcases n with _ | n
  · left
    rw [← hn_eq]
    rfl
  · right
    refine ⟨n + 1, Nat.succ_pos n, ?_⟩
    rw [← hn_eq]
    rfl

/-- C9 counterexample: for the standard format with `e_width = m_width = 1`,
bin width `1/4` and `sample_count = 1` (all allowed by the claim),
`log_histogram` does not return a histogram: `_log_pos_floats` divides by
`sample_count // 2^e_width = 0` and the whole call raises
`ZeroDivisionError` (modelled by `none`). -/
theorem C9_counterexample : log_histogram (.inl ⟨1, 1, .standard⟩) (1/4) 1 = none := by
  have h1 : np_ceil_log2 (IEEE754BinaryFormat.abs_min ⟨1, 1, .standard⟩) = some 0 := by
    norm_num [IEEE754BinaryFormat.abs_min, IEEE754BinaryFormat.min_e,
      IEEE754BinaryFormat.bias, np_ceil_log2, findFirst]
  have h2 : np_ceil_log2 (IEEE754BinaryFormat.abs_max ⟨1, 1, .standard⟩) = some 1 := by
    norm_num [IEEE754BinaryFormat.abs_max, IEEE754BinaryFormat.abs_max_std,
      IEEE754BinaryFormat.max_e, IEEE754BinaryFormat.max_e_std,
      IEEE754BinaryFormat.bias, np_ceil_log2, findFirst]
  have h3 : ∀ edges : List ℚ, count_float_bins ⟨1, 1, .standard⟩ edges 1 = none :=
    fun edges => rfl
  simp only [log_histogram, h1, h2, h3]

/-- C9 amended: `log_histogram` returns a histogram without error — with
every bin reported, empty ones as `-inf` log-count and non-empty ones as the
log of a positive count — for every float format with `e_width ≥ 1`,
`m_width ≥ 1`, positive bin width and `sample_count ≥ 2^e_width`, and for
every scaled integer format with `width ≥ 2` and `scale ≥ 1` (an unscaled
format fails the `isinstance` assertion; `width = 1` or `scale ≤ 0` makes
`int(np.ceil(np.log2(abs_max)))` raise; `sample_count < 2^e_width` raises in
`_log_pos_floats`, see the counterexample). -/
theorem C9_amended_histogram_total :
    (∀ (f : IEEE754BinaryFormat) (w : ℚ) (sc : ℕ),
      1 ≤ f.e_width → 1 ≤ f.m_width → 0 < w → 2 ^ f.e_width ≤ sc →
      ∃ df, log_histogram (.inl f) w sc = some df ∧
        ∀ r ∈ df, r.2.2 = Log2Count.negInf ∨
          ∃ n, 0 < n ∧ r.2.2 = Log2Count.log2 n) ∧
    (∀ (wd : ℕ) (c : ℤ) (w : ℚ) (sc : ℕ),
      2 ≤ wd → 1 ≤ c → 0 < w →
      ∃ df, log_histogram (.inr (.scaled wd c)) w sc = some df ∧
        ∀ r ∈ df, r.2.2 = Log2Count.negInf ∨
          ∃ n, 0 < n ∧ r.2.2 = Log2Count.log2 n) := by
  constructor
  · intro f w sc _hew hmw _hw hsc
    have hminpos : (0 : ℚ) < f.abs_min := two_zpow_pos _
    obtain ⟨z1, hz1⟩ := np_ceil_log2_of_pos _ hminpos
    obtain ⟨z2, hz2⟩ := np_ceil_log2_of_pos _ (abs_max_pos f hmw)
    have hne : ¬(sc / 2 ^ f.e_width = 0) := by
      have := (Nat.one_le_div_iff (Nat.pos_pow_of_pos _ (by norm_num))).2 hsc
      omega
    have hfl : ∀ edges : List ℚ, ∃ cs,
        count_float_bins f edges sc = some (cs, edges) := by
      intro edges
      rw [count_float_bins]
      simp only [log_pos_floats, hne, if_false, Option.map_some']
      exact ⟨_, rfl⟩
    obtain ⟨cs, hcs⟩ := hfl (np_arange ((z1 : ℚ)) ((z2 : ℚ) + 1) w)
    refine ⟨List.zipWith (fun s p => (s, p.1, p.2))
        (np_arange (z1 : ℚ) ((z2 : ℚ) + 1) w).dropLast
        ((np_arange (z1 : ℚ) ((z2 : ℚ) + 1) w).tail.zip (cs.map np_log2_count)), ?_, ?_⟩
    · simp only [log_histogram, hz1, hz2, hcs]
    · exact rows_wellformed _ _
  · intro wd c w sc hwd hc _hw
    have hcq : (0 : ℚ) < (c : ℚ) := by
      have : (0 : ℤ) < c := by omega
      exact_mod_cast this
    have hminpos : (0 : ℚ) < TwosComplementFormat.abs_min (.scaled wd c) := by
      simp only [TwosComplementFormat.abs_min]
      linarith
    have h2 : (2 : ℚ) ≤ 2 ^ ((wd : ℤ) - 1) := by
      calc (2 : ℚ) = 2 ^ (1 : ℤ) := by norm_num
      _ ≤ 2 ^ ((wd : ℤ) - 1) := two_zpow_le (by omega)
    have hmaxpos : (0 : ℚ) < TwosComplementFormat.abs_max (.scaled wd c) := by
      simp only [TwosComplementFormat.abs_max]
      nlinarith
    obtain ⟨z1, hz1⟩ := np_ceil_log2_of_pos _ hminpos
    obtain ⟨z2, hz2⟩ := np_ceil_log2_of_pos _ hmaxpos
    refine ⟨List.zipWith (fun s p => (s, p.1, p.2))
        (np_arange (z1 : ℚ) ((z2 : ℚ) + 1) w).dropLast
        ((np_arange (z1 : ℚ) ((z2 : ℚ) + 1) w).tail.zip
          ((histCounts (log_pos_ints (.scaled wd c))
            (np_arange (z1 : ℚ) ((z2 : ℚ) + 1) w)).map np_log2_count)), ?_, ?_⟩
    · simp only [log_histogram, hz1, hz2, count_int_bins]
    · exact rows_wellformed _ _

theorem C9_witness :
    (log_histogram (.inl ⟨2, 3, .standard⟩) (1/4) 8).isSome = true ∧
    (log_histogram (.inr (.scaled 8 2)) (1/4) 1).isSome = true := by
  obtain ⟨df1, h1, _⟩ := C9_amended_histogram_total.1 ⟨2, 3, .standard⟩ (1/4) 8
    (by norm_num) (by norm_num) (by norm_num) (by norm_num)
  obtain ⟨df2, h2, _⟩ := C9_amended_histogram_total.2 8 2 (1/4) 1
    (by norm_num) (by norm_num) (by norm_num)
  rw [h1, h2]
  exact ⟨rfl, rfl⟩

end NumFormats
